import Mathlib

/-!
Verification of the cutils instrumented allocation layer (src/memory.c).

Shallow embedding of `src/memory.c` from skynetcore/cutils.  Machine
addresses are modelled as natural numbers with `0` standing for the null
address.  The `HeapInfo` cells that the C code obtains from `malloc` are
kept in a store `nodes : List (Nat × HeapInfo)` mapping a cell id (the
address of the cell itself) to its contents; `nextId` supplies fresh cell
ids.  The system allocator is external to the code under verification, so
each allocating operation receives the allocator's response (`none` for a
NULL return) as an explicit argument, and the state carries a ghost view
`sysLive` of the addresses currently handed out by the system allocator
together with a ghost log `sysFreeLog` of every address passed to the
system `free` call at the end of `_mem_free`.

Provenance arguments (`line`, `file`) and the `fprintf` diagnostics have
no effect on any state or return value and are omitted.
-/

/-- One cell of the live-allocation chain (`struct HeapInfo` in memory.c):
`ptr` is the client address returned by the system allocator, `size` the
requested size, and `prev`/`next` link the doubly-linked chain of live
blocks (as cell ids, `none` standing for NULL). -/
structure HeapInfo where
  next : Option Nat
  prev : Option Nat
  ptr : Nat
  size : Nat
deriving Repr, DecidableEq

/-- The usage counters (`struct MemInfo` in memory.c). -/
structure MemInfo where
  allocations_count : Nat
  deallocations_count : Nat
  stack_memory_added : Nat
  heap_memory_added : Nat
  heap_memory_freed : Nat
deriving Repr, DecidableEq

/-- Whole-library state: `memory_data` and `imp_heap` are the two globals
of memory.c (`imp_heap` points at the tail, i.e. most recently inserted,
cell of the chain); `nodes` is the store of `HeapInfo` cells and `nextId`
a fresh-id supply for cells; `sysLive` and `sysFreeLog` are the ghost view
of the external system allocator described in the file header. -/
structure MemState where
  memory_data : MemInfo
  nodes : List (Nat × HeapInfo)
  imp_heap : Option Nat
  nextId : Nat
  sysLive : List Nat
  sysFreeLog : List Nat
deriving Repr, DecidableEq

/-- The state at program start: zero counters, empty chain. -/
def initState : MemState :=
  { memory_data :=
      { allocations_count := 0
        deallocations_count := 0
        stack_memory_added := 0
        heap_memory_added := 0
        heap_memory_freed := 0 }
    nodes := []
    imp_heap := none
    nextId := 0
    sysLive := []
    sysFreeLog := [] }

/-- Read the `HeapInfo` cell with id `i` (dereference a cell pointer). -/
def getNode (ns : List (Nat × HeapInfo)) (i : Nat) : Option HeapInfo :=
  (ns.find? (fun q => q.1 == i)).map (fun q => q.2)

/-- Write the `next` field of the cell with id `i`. -/
def setNext (ns : List (Nat × HeapInfo)) (i : Nat) (v : Option Nat) :
    List (Nat × HeapInfo) :=
  ns.map (fun q => if q.1 == i then (q.1, { q.2 with next := v }) else q)

/-- Write the `prev` field of the cell with id `i`. -/
def setPrev (ns : List (Nat × HeapInfo)) (i : Nat) (v : Option Nat) :
    List (Nat × HeapInfo) :=
  ns.map (fun q => if q.1 == i then (q.1, { q.2 with prev := v }) else q)

/-- Deallocate the cell with id `i` (the `free(freenode)` call). -/
def delNode (ns : List (Nat × HeapInfo)) (i : Nat) : List (Nat × HeapInfo) :=
  ns.filter (fun q => q.1 != i)

/-- The chain-insertion block shared verbatim by `_mem_alloc`,
`_mem_calloc` and `_mem_realloc` (memory.c lines 100-115, 142-157,
184-199): if `imp_heap` is NULL the new cell becomes the whole chain,
otherwise the new cell's `prev` is the current tail, the current tail's
`next` is the new cell, and the new cell becomes `imp_heap`. -/
def heapInsert (p size : Nat) (s : MemState) : MemState :=
  match s.imp_heap with
  | none =>
      { s with
          nodes := (s.nextId, { next := none, prev := none, ptr := p, size := size }) :: s.nodes
          imp_heap := some s.nextId
          nextId := s.nextId + 1 }
  | some t =>
      { s with
          nodes := (s.nextId, { next := none, prev := some t, ptr := p, size := size }) ::
            setNext s.nodes t (some s.nextId)
          imp_heap := some s.nextId
          nextId := s.nextId + 1 }

/-- `_mem_stack_init` (memory.c lines 63-82): `ptrValid` stands for
`ptr != NULL`; on a valid target the location is zero-filled (a memset
effect outside the modelled state) and `stack_memory_added` grows by
`size`; the return value is the success flag. -/
def _mem_stack_init (ptrValid : Bool) (size : Nat) (s : MemState) :
    Bool × MemState :=
  if ptrValid then
    (true,
      { s with memory_data :=
          { s.memory_data with
              stack_memory_added := s.memory_data.stack_memory_added + size } })
  else (false, s)

/-- `_mem_alloc` (memory.c lines 86-125).  `res` is the system `malloc`
response (`none` = NULL).  On `size = 0` malloc is not called and NULL
(`0`) is returned with no state change; on malloc failure likewise; on
success the counters grow and the new block is inserted at the tail. -/
def _mem_alloc (size : Nat) (res : Option Nat) (s : MemState) :
    Nat × MemState :=
  if 0 < size then
    match res with
    | none => (0, s)
    | some p =>
        let s1 :=
          { s with
              memory_data :=
                { s.memory_data with
                    allocations_count := s.memory_data.allocations_count + 1
                    heap_memory_added := s.memory_data.heap_memory_added + size }
              sysLive := p :: s.sysLive }
        (p, heapInsert p size s1)
  else (0, s)

/-- `_mem_calloc` (memory.c lines 129-167).  Identical bookkeeping to
`_mem_alloc`: the guard tests only `size > 0`, and the counters and the
inserted record use the element size `size`, never `num * size`. -/
def _mem_calloc (num : Int) (size : Nat) (res : Option Nat) (s : MemState) :
    Nat × MemState :=
  if 0 < size then
    match res with
    | none => (0, s)
    | some p =>
        let s1 :=
          { s with
              memory_data :=
                { s.memory_data with
                    allocations_count := s.memory_data.allocations_count + 1
                    heap_memory_added := s.memory_data.heap_memory_added + size }
              sysLive := p :: s.sysLive }
        (p, heapInsert p size s1)
  else (0, s)

/-- `_mem_realloc` (memory.c lines 171-209).  `res` is the system
`realloc` response.  With `size = 0` realloc is not called and the
original pointer is returned unchanged; on realloc failure `_memptr` has
been overwritten by NULL so NULL is returned; on success counters grow
and a fresh record for the returned address is inserted — no record for
the old address is removed.  On the ghost side a successful realloc
releases `ptr` from the system allocator and hands out `p`. -/
def _mem_realloc (ptr : Nat) (size : Nat) (res : Option Nat) (s : MemState) :
    Nat × MemState :=
  if 0 < size then
    match res with
    | none => (0, s)
    | some p =>
        let s1 :=
          { s with
              memory_data :=
                { s.memory_data with
                    allocations_count := s.memory_data.allocations_count + 1
                    heap_memory_added := s.memory_data.heap_memory_added + size }
              sysLive := p :: s.sysLive.erase ptr }
        (p, heapInsert p size s1)
  else (ptr, s)

/-- The scan loop of `_mem_free` (memory.c lines 222-229): starting at
`top` and following `prev` links, return the first cell whose `ptr`
matches, together with its id.  `fuel` bounds the walk so the function is
total; on a well-formed chain a fuel of `ns.length` never runs out. -/
def findFrom (ns : List (Nat × HeapInfo)) (t : Nat) :
    Nat → Option Nat → Option (Nat × HeapInfo)
  | 0, _ => none
  | _ + 1, none => none
  | fuel + 1, some i =>
      match getNode ns i with
      | none => none
      | some nd => if nd.ptr == t then some (i, nd) else findFrom ns t fuel nd.prev

/-- The unlink block of `_mem_free` (memory.c lines 235-250): re-point
`prev_node->next` and `next_node->prev` across the removed cell, then
release the cell itself. -/
def unlink (ns : List (Nat × HeapInfo)) (i : Nat) (nd : HeapInfo) :
    List (Nat × HeapInfo) :=
  let ns1 := match nd.prev with
    | some pn => setNext ns pn nd.next
    | none => ns
  let ns2 := match nd.next with
    | some nn => setPrev ns1 nn nd.prev
    | none => ns1
  delNode ns2 i

/-- `_mem_free` (memory.c lines 213-259): scan from the tail for the
first cell matching `ptr`; if found, bump `deallocations_count` and
`heap_memory_freed` by the record's size, unlink it, and move `imp_heap`
to its `prev` if the removed cell was the tail.  In all cases the address
`ptr` is handed to the system `free` unconditionally (ghost: appended to
`sysFreeLog` and erased from `sysLive`), and the match flag is
returned. -/
def _mem_free (ptr : Nat) (s : MemState) : Bool × MemState :=
  match findFrom s.nodes ptr s.nodes.length s.imp_heap with
  | some (i, nd) =>
      (true,
        { s with
            memory_data :=
              { s.memory_data with
                  deallocations_count := s.memory_data.deallocations_count + 1
                  heap_memory_freed := s.memory_data.heap_memory_freed + nd.size }
            nodes := unlink s.nodes i nd
            imp_heap := if s.imp_heap == some i then nd.prev else s.imp_heap
            sysLive := s.sysLive.erase ptr
            sysFreeLog := s.sysFreeLog ++ [ptr] })
  | none =>
      (false,
        { s with
            sysLive := s.sysLive.erase ptr
            sysFreeLog := s.sysFreeLog ++ [ptr] })

/-- A public operation together with the system allocator's response for
the call it makes (the allocator being external nondeterminism). -/
inductive Op where
  | alloc (size : Nat) (res : Option Nat)
  | calloc (num : Int) (size : Nat) (res : Option Nat)
  | realloc (ptr : Nat) (size : Nat) (res : Option Nat)
  | free (ptr : Nat)
  | stackInit (valid : Bool) (size : Nat)
deriving Repr, DecidableEq

/-- State effect of one public operation (return value discarded). -/
def step (s : MemState) : Op → MemState
  | .alloc size res => (_mem_alloc size res s).2
  | .calloc num size res => (_mem_calloc num size res s).2
  | .realloc ptr size res => (_mem_realloc ptr size res s).2
  | .free ptr => (_mem_free ptr s).2
  | .stackInit valid size => (_mem_stack_init valid size s).2

/-- Run a sequence of public operations from `s`. -/
def runOps (s : MemState) (ops : List Op) : MemState := ops.foldl step s

/-- A well-behaved system-allocator response: NULL, or a nonnull address
not currently handed out by the system allocator. -/
def freshRes (s : MemState) (res : Option Nat) : Bool :=
  match res with
  | none => true
  | some p => decide (p ≠ 0) && decide (p ∉ s.sysLive)

/-- Realism constraints on one operation's allocator response: `malloc`
and `calloc` return NULL or a fresh nonnull address; `realloc` is given a
NULL-or-live pointer and returns NULL, the same address, or a fresh one;
`free` and the stack helper make no constrained allocator call (the
response is unused when `size = 0`). -/
def validOp (s : MemState) : Op → Bool
  | .alloc size res => size == 0 || freshRes s res
  | .calloc _ size res => size == 0 || freshRes s res
  | .realloc ptr size res =>
      size == 0 ||
        ((ptr == 0 || decide (ptr ∈ s.sysLive)) &&
          match res with
          | none => true
          | some p => decide (p ≠ 0) && (p == ptr || decide (p ∉ s.sysLive.erase ptr)))
  | .free _ => true
  | .stackInit _ _ => true

/-- Every step of the run obeys `validOp` at the state where it fires. -/
def validRun (s : MemState) : List Op → Bool
  | [] => true
  | op :: ops => validOp s op && validRun (step s op) ops

/-- The addresses recorded in the store, tail-first. -/
def ptrList (s : MemState) : List Nat := s.nodes.map (fun q => q.2.ptr)

/-- The `(address, size)` content of the store, tail-first. -/
def absList (s : MemState) : List (Nat × Nat) :=
  s.nodes.map (fun q => (q.2.ptr, q.2.size))

/-- Sum of the recorded sizes of all live records. -/
def sizeSum (ns : List (Nat × HeapInfo)) : Nat :=
  (ns.map (fun q => q.2.size)).sum

/-- `linkedB ns nxt top`: the store listing `ns` (tail cell first) is
exactly the chain walked from `top` by `prev` links, and the cells are
doubly linked: every listed cell's `next` points at the cell listed just
before it (`nxt` for the head of the listing), its `prev` at the cell
listed just after it, and the last cell's `prev` is NULL. -/
def linkedB : List (Nat × HeapInfo) → Option Nat → Option Nat → Bool
  | [], _, top => top == none
  | (i, nd) :: rest, nxt, top =>
      top == some i && nd.next == nxt && linkedB rest (some i) nd.prev

/-- Well-formed registry state: the store is the chain from `imp_heap`,
cell ids are distinct, and all ids are below the fresh-id supply. -/
def WF (s : MemState) : Prop :=
  linkedB s.nodes none s.imp_heap = true ∧
  (s.nodes.map (fun q => q.1)).Nodup ∧
  ∀ k ∈ s.nodes.map (fun q => q.1), k < s.nextId

instance (s : MemState) : Decidable (WF s) := by
  unfold WF; infer_instance

/-- The walk of the `_mem_free` scan loop made reusable for statements:
cells visited from `top` following `prev`, with fuel. -/
def walkChain (ns : List (Nat × HeapInfo)) :
    Nat → Option Nat → List (Nat × HeapInfo)
  | 0, _ => []
  | _ + 1, none => []
  | fuel + 1, some i =>
      match getNode ns i with
      | none => []
      | some nd => (i, nd) :: walkChain ns fuel nd.prev

/-- The cell ids of a store listing. -/
def keyList (ns : List (Nat × HeapInfo)) : List Nat := ns.map (fun q => q.1)

/-- The client addresses of a store listing. -/
def ptrsOf (ns : List (Nat × HeapInfo)) : List Nat := ns.map (fun q => q.2.ptr)

/-- The `(address, size)` content of a store listing. -/
def contOf (ns : List (Nat × HeapInfo)) : List (Nat × Nat) :=
  ns.map (fun q => (q.2.ptr, q.2.size))

/-- The trace uses only `allocate` and `release` operations. -/
def allocFreeOnly : List Op → Bool
  | [] => true
  | .alloc _ _ :: ops => allocFreeOnly ops
  | .free _ :: ops => allocFreeOnly ops
  | _ => false

/-- The trace never uses `resize`. -/
def noResize : List Op → Bool
  | [] => true
  | .realloc _ _ _ :: _ => false
  | _ :: ops => noResize ops

/-- Modelled from the spec: the set (most-recent-first list) of handles
returned by successful allocations and not yet successfully released,
folded over an allocate/release trace.  An allocation succeeds when its
size is positive and the allocator answered nonnull; a release
successfully releases the handle when it is currently in the set. -/
def specLiveStep (acc : List Nat) : Op → List Nat
  | .alloc size res =>
      if 0 < size then
        match res with
        | some p => p :: acc
        | none => acc
      else acc
  | .free p => acc.erase p
  | _ => acc

/-- Modelled from the spec: allocated-but-not-yet-released handles of a
trace, starting from `acc`. -/
def specLive (acc : List Nat) (ops : List Op) : List Nat :=
  ops.foldl specLiveStep acc

/-- Modelled from the spec: remove the first record (scanning most-recent
first) whose address matches `t` from an `(address, size)` listing. -/
def removeFirstPtr (t : Nat) : List (Nat × Nat) → List (Nat × Nat)
  | [] => []
  | q :: rest => if q.1 == t then rest else q :: removeFirstPtr t rest

/-! Basic store lemmas. -/

theorem getNode_cons (j : Nat) (nd : HeapInfo) (ns : List (Nat × HeapInfo)) (i : Nat) :
    getNode ((j, nd) :: ns) i = if j == i then some nd else getNode ns i := by
  by_cases h : j == i <;> simp [getNode, List.find?_cons, h]

theorem getNode_mem {ns : List (Nat × HeapInfo)} {i : Nat} {nd : HeapInfo}
    (h : getNode ns i = some nd) : (i, nd) ∈ ns := by
  unfold getNode at h
  cases hf : ns.find? (fun q => q.1 == i) with
  | none => rw [hf] at h; simp at h
  | some q =>
      rw [hf] at h
      simp at h
      have hkey := List.find?_some hf
      simp only [beq_iff_eq] at hkey
      have hmem : q ∈ ns := List.mem_of_find?_eq_some hf
      have hq : q = (i, nd) := by
        cases q with
        | mk a b => simp_all
      rw [hq] at hmem
      exact hmem

theorem getNode_of_mem {ns : List (Nat × HeapInfo)} {i : Nat} {nd : HeapInfo}
    (hnd : (keyList ns).Nodup) (h : (i, nd) ∈ ns) : getNode ns i = some nd := by
  induction ns with
  | nil => simp at h
  | cons q ns ih =>
      obtain ⟨a, b⟩ := q
      simp only [keyList, List.map_cons, List.nodup_cons] at hnd
      rcases List.mem_cons.mp h with h1 | h1
      · rw [← h1, getNode_cons]; simp
      · have hne : (a == i) = false := by
          apply beq_eq_false_iff_ne.mpr
          intro e
          exact hnd.1 (by rw [e]; exact List.mem_map_of_mem (fun r => r.1) h1)
        rw [getNode_cons, hne]
        simp only [Bool.false_eq_true, if_false]
        exact ih hnd.2 h1

theorem getNode_append_of_not_mem {pre : List (Nat × HeapInfo)} {i : Nat}
    (ns : List (Nat × HeapInfo)) (h : i ∉ keyList pre) :
    getNode (pre ++ ns) i = getNode ns i := by
  induction pre with
  | nil => rfl
  | cons q pre ih =>
      obtain ⟨a, b⟩ := q
      simp only [keyList, List.map_cons, List.mem_cons, not_or] at h
      have hne : (a == i) = false := beq_eq_false_iff_ne.mpr (fun e => h.1 (by rw [e]))
      rw [List.cons_append, getNode_cons, hne]
      simp only [Bool.false_eq_true, if_false]
      exact ih (by simp only [keyList]; exact h.2)

theorem setNext_cons_ne {k j : Nat} (ndk : HeapInfo) (M : List (Nat × HeapInfo))
    (v : Option Nat) (h : (k == j) = false) :
    setNext ((k, ndk) :: M) j v = (k, ndk) :: setNext M j v := by
  have h2 : ¬ k = j := by simpa using h
  simp [setNext, h2]

theorem setPrev_cons_ne {k j : Nat} (ndk : HeapInfo) (M : List (Nat × HeapInfo))
    (v : Option Nat) (h : (k == j) = false) :
    setPrev ((k, ndk) :: M) j v = (k, ndk) :: setPrev M j v := by
  have h2 : ¬ k = j := by simpa using h
  simp [setPrev, h2]

theorem delNode_cons_ne {k j : Nat} (ndk : HeapInfo) (M : List (Nat × HeapInfo))
    (h : (k == j) = false) :
    delNode ((k, ndk) :: M) j = (k, ndk) :: delNode M j := by
  have h2 : ¬ k = j := by simpa using h
  simp [delNode, List.filter_cons, h2]

theorem setNext_eq_of_not_mem {ns : List (Nat × HeapInfo)} {i : Nat} (v : Option Nat)
    (h : i ∉ keyList ns) : setNext ns i v = ns := by
  induction ns with
  | nil => rfl
  | cons q ns ih =>
      simp only [keyList, List.map_cons, List.mem_cons, not_or] at h
      have hne : (q.1 == i) = false := beq_eq_false_iff_ne.mpr (fun e => h.1 (by rw [e]))
      simp only [setNext, List.map_cons, hne, Bool.false_eq_true, if_false]
      exact congrArg (q :: ·) (ih (by simp only [keyList]; exact h.2))

theorem setPrev_eq_of_not_mem {ns : List (Nat × HeapInfo)} {i : Nat} (v : Option Nat)
    (h : i ∉ keyList ns) : setPrev ns i v = ns := by
  induction ns with
  | nil => rfl
  | cons q ns ih =>
      simp only [keyList, List.map_cons, List.mem_cons, not_or] at h
      have hne : (q.1 == i) = false := beq_eq_false_iff_ne.mpr (fun e => h.1 (by rw [e]))
      simp only [setPrev, List.map_cons, hne, Bool.false_eq_true, if_false]
      exact congrArg (q :: ·) (ih (by simp only [keyList]; exact h.2))

theorem delNode_eq_of_not_mem {ns : List (Nat × HeapInfo)} {i : Nat}
    (h : i ∉ keyList ns) : delNode ns i = ns := by
  induction ns with
  | nil => rfl
  | cons q ns ih =>
      simp only [keyList, List.map_cons, List.mem_cons, not_or] at h
      have hne : (q.1 != i) = true := by
        simp only [bne_iff_ne, ne_eq]
        exact fun e => h.1 (by rw [e])
      simp only [delNode, List.filter_cons, hne, if_true]
      exact congrArg (q :: ·) (ih (by simp only [keyList]; exact h.2))

theorem keyList_setNext (ns : List (Nat × HeapInfo)) (i : Nat) (v : Option Nat) :
    keyList (setNext ns i v) = keyList ns := by
  unfold keyList setNext
  rw [List.map_map]
  apply List.map_congr_left
  intro q _
  by_cases h : q.1 == i <;> simp [h, Function.comp]

theorem keyList_setPrev (ns : List (Nat × HeapInfo)) (i : Nat) (v : Option Nat) :
    keyList (setPrev ns i v) = keyList ns := by
  unfold keyList setPrev
  rw [List.map_map]
  apply List.map_congr_left
  intro q _
  by_cases h : q.1 == i <;> simp [h, Function.comp]

theorem contOf_setNext (ns : List (Nat × HeapInfo)) (i : Nat) (v : Option Nat) :
    contOf (setNext ns i v) = contOf ns := by
  unfold contOf setNext
  rw [List.map_map]
  apply List.map_congr_left
  intro q _
  by_cases h : q.1 == i <;> simp [h, Function.comp]

theorem contOf_setPrev (ns : List (Nat × HeapInfo)) (i : Nat) (v : Option Nat) :
    contOf (setPrev ns i v) = contOf ns := by
  unfold contOf setPrev
  rw [List.map_map]
  apply List.map_congr_left
  intro q _
  by_cases h : q.1 == i <;> simp [h, Function.comp]

theorem keyList_delNode (ns : List (Nat × HeapInfo)) (i : Nat) :
    keyList (delNode ns i) = (keyList ns).filter (fun k => k != i) := by
  induction ns with
  | nil => rfl
  | cons q ns ih =>
      by_cases h : (q.1 != i) = true <;>
        simp [delNode, keyList, List.filter_cons, h] at ih ⊢ <;> exact ih

theorem ptrsOf_eq_map_contOf (ns : List (Nat × HeapInfo)) :
    ptrsOf ns = (contOf ns).map (fun q => q.1) := by
  unfold ptrsOf contOf
  rw [List.map_map]
  rfl

theorem sizeSum_eq_sum_contOf (ns : List (Nat × HeapInfo)) :
    sizeSum ns = ((contOf ns).map (fun q => q.2)).sum := by
  unfold sizeSum contOf
  rw [List.map_map]
  rfl

/-! Chain-shape lemmas. -/

theorem linkedB_top_none {ns : List (Nat × HeapInfo)} {nxt : Option Nat}
    (h : linkedB ns nxt none = true) : ns = [] := by
  cases ns with
  | nil => rfl
  | cons q rest =>
      obtain ⟨i, nd⟩ := q
      simp [linkedB] at h

theorem linkedB_cons_shape {ns : List (Nat × HeapInfo)} {nxt : Option Nat} {i : Nat}
    (h : linkedB ns nxt (some i) = true) :
    ∃ nd rest, ns = (i, nd) :: rest ∧ nd.next = nxt ∧
      linkedB rest (some i) nd.prev = true := by
  cases ns with
  | nil => simp [linkedB] at h
  | cons q rest =>
      obtain ⟨j, nd⟩ := q
      simp only [linkedB, Bool.and_eq_true, beq_iff_eq] at h
      obtain ⟨⟨hij, hnext⟩, hrest⟩ := h
      obtain rfl : i = j := Option.some.inj hij
      exact ⟨nd, rest, rfl, hnext, hrest⟩

theorem linkedB_mid_prev (X : List (Nat × HeapInfo)) {i : Nat} {nd : HeapInfo}
    {B : List (Nat × HeapInfo)} :
    ∀ {nxt top : Option Nat}, linkedB (X ++ (i, nd) :: B) nxt top = true →
      (B = [] ∧ nd.prev = none) ∨ ∃ j ndj B2, B = (j, ndj) :: B2 ∧ nd.prev = some j := by
  induction X with
  | nil =>
      intro nxt top h
      rw [List.nil_append] at h
      simp only [linkedB, Bool.and_eq_true, beq_iff_eq] at h
      obtain ⟨⟨htop, hnext⟩, hrest⟩ := h
      cases hB : B with
      | nil =>
          left
          refine ⟨rfl, ?_⟩
          rw [hB] at hrest
          simpa [linkedB] using hrest
      | cons q B2 =>
          obtain ⟨j, ndj⟩ := q
          right
          rw [hB] at hrest
          simp only [linkedB, Bool.and_eq_true, beq_iff_eq] at hrest
          exact ⟨j, ndj, B2, rfl, hrest.1.1⟩
  | cons hd X ih =>
      intro nxt top h
      obtain ⟨k, ndk⟩ := hd
      rw [List.cons_append] at h
      simp only [linkedB, Bool.and_eq_true, beq_iff_eq] at h
      exact ih h.2

theorem linkedB_mid_next (X : List (Nat × HeapInfo)) {i : Nat} {nd : HeapInfo}
    {B : List (Nat × HeapInfo)} :
    ∀ {nxt top : Option Nat}, linkedB (X ++ (i, nd) :: B) nxt top = true →
      (X = [] ∧ nd.next = nxt) ∨ ∃ a ∈ X, nd.next = some a.1 := by
  induction X with
  | nil =>
      intro nxt top h
      rw [List.nil_append] at h
      simp only [linkedB, Bool.and_eq_true, beq_iff_eq] at h
      exact Or.inl ⟨rfl, h.1.2⟩
  | cons hd X ih =>
      intro nxt top h
      obtain ⟨k, ndk⟩ := hd
      rw [List.cons_append] at h
      simp only [linkedB, Bool.and_eq_true, beq_iff_eq] at h
      right
      rcases ih h.2 with ⟨hX, hnext⟩ | ⟨a, ha, hnext⟩
      · exact ⟨(k, ndk), List.mem_cons_self _ _, hnext⟩
      · exact ⟨a, List.mem_cons_of_mem _ ha, hnext⟩

theorem unlink_cons_pass {k : Nat} (ndk : HeapInfo) (M : List (Nat × HeapInfo))
    {i : Nat} (nd : HeapInfo)
    (hki : (k == i) = false)
    (hprev : ∀ pn, nd.prev = some pn → (k == pn) = false)
    (hnext : ∀ nn, nd.next = some nn → (k == nn) = false) :
    unlink ((k, ndk) :: M) i nd = (k, ndk) :: unlink M i nd := by
  unfold unlink
  cases hp : nd.prev with
  | none =>
      cases hn : nd.next with
      | none =>
          simp only
          exact delNode_cons_ne ndk M hki
      | some nn =>
          simp only
          rw [setPrev_cons_ne ndk M _ (hnext nn hn)]
          exact delNode_cons_ne ndk _ hki
  | some pn =>
      simp only
      rw [setNext_cons_ne ndk M _ (hprev pn hp)]
      cases hn : nd.next with
      | none =>
          simp only
          exact delNode_cons_ne ndk _ hki
      | some nn =>
          simp only
          rw [setPrev_cons_ne ndk _ _ (hnext nn hn)]
          exact delNode_cons_ne ndk _ hki

theorem setNext_cons_self (j : Nat) (ndj : HeapInfo) (M : List (Nat × HeapInfo))
    (v : Option Nat) :
    setNext ((j, ndj) :: M) j v = (j, { ndj with next := v }) :: setNext M j v := by
  simp [setNext]

theorem setPrev_cons_self (j : Nat) (ndj : HeapInfo) (M : List (Nat × HeapInfo))
    (v : Option Nat) :
    setPrev ((j, ndj) :: M) j v = (j, { ndj with prev := v }) :: setPrev M j v := by
  simp [setPrev]

theorem delNode_cons_self (i : Nat) (nd : HeapInfo) (M : List (Nat × HeapInfo)) :
    delNode ((i, nd) :: M) i = delNode M i := by
  simp [delNode, List.filter_cons]

theorem linkedB_unlink_head {i : Nat} {nd : HeapInfo} {B : List (Nat × HeapInfo)}
    {nxt top : Option Nat}
    (h : linkedB ((i, nd) :: B) nxt top = true)
    (hnd : (keyList ((i, nd) :: B)).Nodup)
    (hnx : ∀ k2, nxt = some k2 → k2 ∉ keyList ((i, nd) :: B)) :
    linkedB (unlink ((i, nd) :: B) i nd) nxt nd.prev = true := by
  simp only [linkedB, Bool.and_eq_true, beq_iff_eq] at h
  obtain ⟨⟨htop, hnext⟩, hrest⟩ := h
  cases B with
  | nil =>
      have hp : nd.prev = none := by simpa [linkedB] using hrest
      have hres : unlink [(i, nd)] i nd = [] := by
        unfold unlink
        rw [hp]
        cases hn : nd.next with
        | none => simp [delNode]
        | some nn =>
            have hni : nn ∉ keyList [(i, nd)] := hnx nn (by rw [← hnext, hn])
            simp only
            rw [setPrev_eq_of_not_mem _ hni]
            simp [delNode]
      rw [hres, hp]
      simp [linkedB]
  | cons q B2 =>
      obtain ⟨j, ndj⟩ := q
      simp only [linkedB, Bool.and_eq_true, beq_iff_eq] at hrest
      obtain ⟨⟨hpj, hnj⟩, hrest2⟩ := hrest
      simp only [keyList, List.map_cons, List.nodup_cons, List.mem_cons, not_or] at hnd
      have hij : (i == j) = false := beq_eq_false_iff_ne.mpr hnd.1.1
      have hiB2 : i ∉ List.map (fun q => q.1) B2 := hnd.1.2
      have hjB2 : j ∉ List.map (fun q => q.1) B2 := hnd.2.1
      have hdel : delNode ((i, nd) :: (j, { ndj with next := nd.next }) :: B2) i
          = (j, { ndj with next := nd.next }) :: B2 := by
        rw [delNode_cons_self,
          delNode_cons_ne _ _ (beq_eq_false_iff_ne.mpr (fun e => hnd.1.1 e.symm)),
          delNode_eq_of_not_mem (by simpa [keyList] using hiB2)]
      have hres : unlink ((i, nd) :: (j, ndj) :: B2) i nd
          = (j, { ndj with next := nd.next }) :: B2 := by
        cases hn : nd.next with
        | none =>
            unfold unlink
            rw [hpj, hn]
            simp only
            rw [setNext_cons_ne nd _ _ hij, setNext_cons_self,
              setNext_eq_of_not_mem _ (by simpa [keyList] using hjB2)]
            rw [hn] at hdel
            exact hdel
        | some nn =>
            have hni : nn ∉ keyList ((i, nd) :: (j, ndj) :: B2) :=
              hnx nn (by rw [← hnext, hn])
            simp only [keyList, List.map_cons, List.mem_cons, not_or] at hni
            unfold unlink
            rw [hpj, hn]
            simp only
            rw [setNext_cons_ne nd _ _ hij, setNext_cons_self,
              setNext_eq_of_not_mem _ (by simpa [keyList] using hjB2)]
            rw [setPrev_cons_ne _ _ _ (beq_eq_false_iff_ne.mpr (fun e => hni.1 e.symm)),
              setPrev_cons_ne _ _ _ (beq_eq_false_iff_ne.mpr (fun e => hni.2.1 e.symm)),
              setPrev_eq_of_not_mem _ (by simpa [keyList] using hni.2.2)]
            rw [hn] at hdel
            exact hdel
      rw [hres, hpj]
      simp [linkedB, hnext, hrest2]

theorem linkedB_unlink_second {k i : Nat} {ndk nd : HeapInfo} {B : List (Nat × HeapInfo)}
    {nxt top : Option Nat}
    (h : linkedB ((k, ndk) :: (i, nd) :: B) nxt top = true)
    (hnd : (keyList ((k, ndk) :: (i, nd) :: B)).Nodup) :
    linkedB (unlink ((k, ndk) :: (i, nd) :: B) i nd) nxt top = true := by
  simp only [linkedB, Bool.and_eq_true, beq_iff_eq] at h
  obtain ⟨⟨htop, hknxt⟩, ⟨hpk, hnk⟩, hrest⟩ := h
  simp only [keyList, List.map_cons, List.nodup_cons, List.mem_cons, not_or] at hnd
  obtain ⟨⟨hki, hkB⟩, hiB, hBnd⟩ := hnd
  cases B with
  | nil =>
      have hp : nd.prev = none := by simpa [linkedB] using hrest
      have hres : unlink ((k, ndk) :: (i, nd) :: []) i nd
          = [(k, { ndk with prev := nd.prev })] := by
        unfold unlink
        rw [hp, hnk]
        simp only
        rw [setPrev_cons_self,
          setPrev_cons_ne _ _ _ (beq_eq_false_iff_ne.mpr (fun e => hki e.symm)),
          setPrev_eq_of_not_mem _ (by simp [keyList])]
        rw [delNode_cons_ne _ _ (beq_eq_false_iff_ne.mpr hki), delNode_cons_self]
        rfl
      rw [hres, hp]
      simp [linkedB, htop, hknxt]
  | cons q B2 =>
      obtain ⟨j, ndj⟩ := q
      simp only [linkedB, Bool.and_eq_true, beq_iff_eq] at hrest
      obtain ⟨⟨hpj, hnj⟩, hrest2⟩ := hrest
      simp only [List.map_cons, List.mem_cons, not_or] at hkB hiB
      obtain ⟨hkj, hkB2⟩ := hkB
      obtain ⟨hij, hiB2⟩ := hiB
      simp only [List.map_cons, List.nodup_cons, List.mem_cons, not_or] at hBnd
      obtain ⟨hjB2, hB2nd⟩ := hBnd
      have hres : unlink ((k, ndk) :: (i, nd) :: (j, ndj) :: B2) i nd
          = (k, { ndk with prev := nd.prev }) ::
            (j, { ndj with next := nd.next }) :: B2 := by
        unfold unlink
        rw [hpj, hnk]
        simp only
        rw [setNext_cons_ne _ _ _ (beq_eq_false_iff_ne.mpr hkj),
          setNext_cons_ne _ _ _ (beq_eq_false_iff_ne.mpr hij),
          setNext_cons_self,
          setNext_eq_of_not_mem _ (by simpa [keyList] using hjB2)]
        rw [setPrev_cons_self,
          setPrev_cons_ne _ _ _ (beq_eq_false_iff_ne.mpr (fun e => hki e.symm)),
          setPrev_cons_ne _ _ _ (beq_eq_false_iff_ne.mpr (fun e => hkj e.symm)),
          setPrev_eq_of_not_mem _ (by simpa [keyList] using hkB2)]
        rw [delNode_cons_ne _ _ (beq_eq_false_iff_ne.mpr hki),
          delNode_cons_self,
          delNode_cons_ne _ _ (beq_eq_false_iff_ne.mpr (fun e => hij e.symm)),
          delNode_eq_of_not_mem (by simpa [keyList] using hiB2)]
      rw [hres, hpj, hnk]
      simp [linkedB, htop, hknxt, hnj, hrest2]

theorem keyList_cons (q : Nat × HeapInfo) (ns : List (Nat × HeapInfo)) :
    keyList (q :: ns) = q.1 :: keyList ns := rfl

theorem keyList_append (xs ys : List (Nat × HeapInfo)) :
    keyList (xs ++ ys) = keyList xs ++ keyList ys := by
  simp [keyList]

theorem linkedB_cons_destruct {i : Nat} {nd : HeapInfo} {rest : List (Nat × HeapInfo)}
    {nxt top : Option Nat} (h : linkedB ((i, nd) :: rest) nxt top = true) :
    top = some i ∧ nd.next = nxt ∧ linkedB rest (some i) nd.prev = true := by
  simp only [linkedB, Bool.and_eq_true, beq_iff_eq] at h
  exact ⟨h.1.1, h.1.2, h.2⟩

theorem linkedB_cons_build {i : Nat} {nd : HeapInfo} {rest : List (Nat × HeapInfo)}
    {nxt top : Option Nat} (h1 : top = some i) (h2 : nd.next = nxt)
    (h3 : linkedB rest (some i) nd.prev = true) :
    linkedB ((i, nd) :: rest) nxt top = true := by
  simp [linkedB, h1, h2, h3]

theorem linkedB_unlink (A : List (Nat × HeapInfo)) :
    ∀ (B : List (Nat × HeapInfo)) (i : Nat) (nd : HeapInfo) (nxt top : Option Nat),
      linkedB (A ++ (i, nd) :: B) nxt top = true →
      (keyList (A ++ (i, nd) :: B)).Nodup →
      (∀ k2, nxt = some k2 → k2 ∉ keyList (A ++ (i, nd) :: B)) →
      linkedB (unlink (A ++ (i, nd) :: B) i nd) nxt
        (if A.isEmpty then nd.prev else top) = true := by
  induction A with
  | nil =>
      intro B i nd nxt top h hnd hnx
      rw [List.nil_append] at h hnd hnx ⊢
      simp only [List.isEmpty_nil, if_true]
      exact linkedB_unlink_head h hnd hnx
  | cons hd A2 ih =>
      intro B i nd nxt top h hnd hnx
      obtain ⟨k, ndk⟩ := hd
      cases A2 with
      | nil =>
          rw [List.cons_append, List.nil_append] at h hnd ⊢
          simp only [List.isEmpty_cons, Bool.false_eq_true, if_false]
          exact linkedB_unlink_second h hnd
      | cons hd2 A3 =>
          obtain ⟨k2, ndk2⟩ := hd2
          rw [List.cons_append] at h hnd hnx ⊢
          simp only [List.isEmpty_cons, Bool.false_eq_true, if_false]
          rw [keyList_cons, List.nodup_cons] at hnd
          obtain ⟨hkmem, hndrest⟩ := hnd
          obtain ⟨htop, hknxt, h2⟩ := linkedB_cons_destruct h
          have hki : (k == i) = false := by
            apply beq_eq_false_iff_ne.mpr
            intro e
            apply hkmem
            rw [e]
            simp [keyList]
          have hprev : ∀ pn, nd.prev = some pn → (k == pn) = false := by
            intro pn hp
            rcases linkedB_mid_prev ((k2, ndk2) :: A3) h2 with ⟨hB, hpn⟩ | ⟨j, ndj, B2, hB, hpj⟩
            · rw [hp] at hpn
              exact absurd hpn (by simp)
            · rw [hp] at hpj
              obtain rfl : pn = j := Option.some.inj hpj
              apply beq_eq_false_iff_ne.mpr
              intro e
              apply hkmem
              rw [e]
              simp [keyList, hB]
          have hnext : ∀ nn, nd.next = some nn → (k == nn) = false := by
            intro nn hn
            rcases linkedB_mid_next ((k2, ndk2) :: A3) h2 with ⟨hA, _⟩ | ⟨a, ha, hna⟩
            · exact absurd hA (by simp)
            · rw [hn] at hna
              obtain rfl : nn = a.1 := Option.some.inj hna
              apply beq_eq_false_iff_ne.mpr
              intro e
              apply hkmem
              rw [e]
              have hmem : a.1 ∈ keyList ((k2, ndk2) :: A3) :=
                List.mem_map_of_mem (fun q => q.1) ha
              rw [keyList_append]
              exact List.mem_append_left _ hmem
          rw [unlink_cons_pass ndk _ nd hki hprev hnext]
          have ihres := ih B i nd (some k) ndk.prev h2 hndrest
            (fun k3 hk3 => by
              obtain rfl : k = k3 := Option.some.inj hk3
              exact hkmem)
          simp only [List.isEmpty_cons, Bool.false_eq_true, if_false] at ihres
          exact linkedB_cons_build htop hknxt ihres

/-! Scan-loop lemmas. -/

theorem findFrom_some {ns : List (Nat × HeapInfo)} {t : Nat} :
    ∀ {fuel : Nat} {top : Option Nat} {i : Nat} {nd : HeapInfo},
      findFrom ns t fuel top = some (i, nd) →
      getNode ns i = some nd ∧ nd.ptr = t := by
  intro fuel
  induction fuel with
  | zero =>
      intro top i nd h
      simp [findFrom] at h
  | succ fuel ih =>
      intro top i nd h
      cases top with
      | none => simp [findFrom] at h
      | some j =>
          rw [findFrom] at h
          cases hg : getNode ns j with
          | none => rw [hg] at h; simp at h
          | some ndj =>
              rw [hg] at h
              have h2 : (if (ndj.ptr == t) = true then some (j, ndj)
                  else findFrom ns t fuel ndj.prev) = some (i, nd) := h
              by_cases hp : (ndj.ptr == t) = true
              · rw [if_pos hp] at h2
                obtain ⟨rfl, rfl⟩ : j = i ∧ ndj = nd := by
                  have h3 := Option.some.inj h2
                  exact ⟨congrArg Prod.fst h3, congrArg Prod.snd h3⟩
                exact ⟨hg, by simpa using hp⟩
              · rw [if_neg hp] at h2
                exact ih h2

theorem findFrom_none_of_not_mem {ns : List (Nat × HeapInfo)} {t : Nat}
    (hm : t ∉ ptrsOf ns) :
    ∀ (fuel : Nat) (top : Option Nat), findFrom ns t fuel top = none := by
  intro fuel
  induction fuel with
  | zero => intro top; rfl
  | succ fuel ih =>
      intro top
      cases top with
      | none => rfl
      | some j =>
          rw [findFrom]
          cases hg : getNode ns j with
          | none => rfl
          | some ndj =>
              have hne : (ndj.ptr == t) = false := by
                apply beq_eq_false_iff_ne.mpr
                intro e
                apply hm
                rw [← e]
                exact List.mem_map_of_mem (fun q => q.2.ptr) (getNode_mem hg)
              show (if (ndj.ptr == t) = true then some (j, ndj)
                  else findFrom ns t fuel ndj.prev) = none
              rw [hne]
              simp only [Bool.false_eq_true, if_false]
              exact ih ndj.prev

theorem findFrom_eq_find? (rest : List (Nat × HeapInfo)) :
    ∀ (pre : List (Nat × HeapInfo)) (t : Nat) (nxt top : Option Nat) (fuel : Nat),
      linkedB rest nxt top = true →
      (keyList (pre ++ rest)).Nodup →
      rest.length ≤ fuel →
      findFrom (pre ++ rest) t fuel top = rest.find? (fun q => q.2.ptr == t) := by
  induction rest with
  | nil =>
      intro pre t nxt top fuel hl hnd hf
      have htop : top = none := by simpa [linkedB] using hl
      subst htop
      cases fuel <;> rfl
  | cons q rest ih =>
      intro pre t nxt top fuel hl hnd hf
      obtain ⟨i, nd⟩ := q
      obtain ⟨htop, hnext, hrest⟩ := linkedB_cons_destruct hl
      subst htop
      cases fuel with
      | zero => simp at hf
      | succ fuel =>
          have hipre : i ∉ keyList pre := by
            rw [keyList_append, List.nodup_append] at hnd
            intro hm
            exact hnd.2.2 hm (by simp [keyList])
          have hig : getNode (pre ++ (i, nd) :: rest) i = some nd := by
            rw [getNode_append_of_not_mem _ hipre, getNode_cons]
            simp
          rw [findFrom, hig]
          show (if (nd.ptr == t) = true then some (i, nd)
              else findFrom (pre ++ (i, nd) :: rest) t fuel nd.prev) =
            ((i, nd) :: rest).find? (fun q => q.2.ptr == t)
          by_cases hp : (nd.ptr == t) = true
          · rw [if_pos hp]
            exact (@List.find?_cons_of_pos _ (fun q => q.2.ptr == t) (i, nd) rest hp).symm
          · rw [if_neg hp,
              @List.find?_cons_of_neg _ (fun q => q.2.ptr == t) (i, nd) rest (by simpa using hp)]
            have hre := ih (pre ++ [(i, nd)]) t (some i) nd.prev fuel hrest
              (by rw [← List.append_cons]; exact hnd)
              (by exact Nat.le_of_succ_le_succ hf)
            rw [← List.append_cons] at hre
            exact hre

/-! Commutation of cell removal with field updates, and content equations. -/

theorem delNode_setNext (ns : List (Nat × HeapInfo)) (j : Nat) (v : Option Nat) (i : Nat) :
    delNode (setNext ns j v) i = setNext (delNode ns i) j v := by
  induction ns with
  | nil => rfl
  | cons q ns ih =>
      by_cases h : (q.1 == j) = true <;> by_cases h2 : (q.1 != i) = true <;>
        simp [delNode, setNext, List.filter_cons, List.map_cons, h, h2] at ih ⊢ <;>
        simp_all [delNode, setNext]

theorem delNode_setPrev (ns : List (Nat × HeapInfo)) (j : Nat) (v : Option Nat) (i : Nat) :
    delNode (setPrev ns j v) i = setPrev (delNode ns i) j v := by
  induction ns with
  | nil => rfl
  | cons q ns ih =>
      by_cases h : (q.1 == j) = true <;> by_cases h2 : (q.1 != i) = true <;>
        simp [delNode, setPrev, List.filter_cons, List.map_cons, h, h2] at ih ⊢ <;>
        simp_all [delNode, setPrev]

theorem contOf_unlink (ns : List (Nat × HeapInfo)) (i : Nat) (nd : HeapInfo) :
    contOf (unlink ns i nd) = contOf (delNode ns i) := by
  unfold unlink
  cases nd.prev <;> cases nd.next <;>
    simp only [delNode_setNext, delNode_setPrev, contOf_setNext, contOf_setPrev]

theorem keyList_unlink (ns : List (Nat × HeapInfo)) (i : Nat) (nd : HeapInfo) :
    keyList (unlink ns i nd) = keyList (delNode ns i) := by
  unfold unlink
  cases nd.prev <;> cases nd.next <;>
    simp only [delNode_setNext, delNode_setPrev, keyList_setNext, keyList_setPrev]

theorem delNode_append_self {A B : List (Nat × HeapInfo)} (i : Nat) (nd : HeapInfo)
    (hA : i ∉ keyList A) (hB : i ∉ keyList B) :
    delNode (A ++ (i, nd) :: B) i = A ++ B := by
  show (A ++ (i, nd) :: B).filter (fun q => q.1 != i) = A ++ B
  rw [List.filter_append, List.filter_cons]
  simp only [bne_self_eq_false, Bool.false_eq_true, if_false]
  rw [show A.filter (fun q => q.1 != i) = A from delNode_eq_of_not_mem hA,
    show B.filter (fun q => q.1 != i) = B from delNode_eq_of_not_mem hB]

theorem find?_split {ns : List (Nat × HeapInfo)} {t : Nat} {i : Nat} {nd : HeapInfo}
    (h : ns.find? (fun q => q.2.ptr == t) = some (i, nd)) :
    ∃ A B, ns = A ++ (i, nd) :: B ∧ (∀ a ∈ A, (a.2.ptr == t) = false) ∧ nd.ptr = t := by
  induction ns with
  | nil => simp at h
  | cons q ns ih =>
      by_cases hp : (q.2.ptr == t) = true
      · rw [@List.find?_cons_of_pos _ (fun q => q.2.ptr == t) q ns hp] at h
        have hq : q = (i, nd) := Option.some.inj h
        subst hq
        exact ⟨[], ns, rfl, by simp, by simpa using hp⟩
      · rw [@List.find?_cons_of_neg _ (fun q => q.2.ptr == t) q ns (by simpa using hp)] at h
        obtain ⟨A, B, hns, hA, hnd⟩ := ih h
        refine ⟨q :: A, B, by simp [hns], ?_, hnd⟩
        intro a ha
        rcases List.mem_cons.mp ha with h1 | h1
        · rw [h1]; simpa using hp
        · exact hA a h1

theorem find?_isSome_of_mem {ns : List (Nat × HeapInfo)} {t : Nat}
    (hm : t ∈ ptrsOf ns) :
    ∃ i nd, ns.find? (fun q => q.2.ptr == t) = some (i, nd) := by
  obtain ⟨q, hq, hqt⟩ := List.mem_map.mp hm
  cases hf : ns.find? (fun q => q.2.ptr == t) with
  | none =>
      rw [List.find?_eq_none] at hf
      exact absurd (by simpa using hqt) (by simpa using hf q hq)
  | some q2 =>
      obtain ⟨a, b⟩ := q2
      exact ⟨a, b, rfl⟩

/-! Behavior of `_mem_free`. -/

theorem mem_free_unmatched {s : MemState} {t : Nat}
    (hm : t ∉ ptrsOf s.nodes) :
    _mem_free t s = (false,
      { s with sysLive := s.sysLive.erase t, sysFreeLog := s.sysFreeLog ++ [t] }) := by
  unfold _mem_free
  rw [findFrom_none_of_not_mem hm]

theorem mem_free_matched {s : MemState} {t : Nat} {i : Nat} {nd : HeapInfo}
    (hwf : WF s)
    (hfind : s.nodes.find? (fun q => q.2.ptr == t) = some (i, nd)) :
    _mem_free t s = (true,
      { s with
          memory_data :=
            { s.memory_data with
                deallocations_count := s.memory_data.deallocations_count + 1
                heap_memory_freed := s.memory_data.heap_memory_freed + nd.size }
          nodes := unlink s.nodes i nd
          imp_heap := if s.imp_heap == some i then nd.prev else s.imp_heap
          sysLive := s.sysLive.erase t
          sysFreeLog := s.sysFreeLog ++ [t] }) := by
  have hff0 := findFrom_eq_find? s.nodes [] t none s.imp_heap s.nodes.length hwf.1
    (by exact hwf.2.1) (Nat.le_refl _)
  rw [List.nil_append] at hff0
  have hff : findFrom s.nodes t s.nodes.length s.imp_heap = some (i, nd) :=
    hff0.trans hfind
  unfold _mem_free
  rw [hff]

/-! Insertion lemmas. -/

theorem heapInsert_frame (p size : Nat) (s : MemState) :
    (heapInsert p size s).memory_data = s.memory_data ∧
    (heapInsert p size s).sysLive = s.sysLive ∧
    (heapInsert p size s).sysFreeLog = s.sysFreeLog ∧
    (heapInsert p size s).nextId = s.nextId + 1 := by
  unfold heapInsert
  cases s.imp_heap <;> simp

theorem contOf_heapInsert (p size : Nat) (s : MemState) :
    contOf (heapInsert p size s).nodes = (p, size) :: contOf s.nodes := by
  unfold heapInsert
  cases s.imp_heap with
  | none => simp [contOf]
  | some t =>
      simp only [contOf, List.map_cons]
      rw [show List.map (fun q => (q.2.ptr, q.2.size)) (setNext s.nodes t (some s.nextId))
        = contOf (setNext s.nodes t (some s.nextId)) from rfl, contOf_setNext]
      rfl

theorem keyList_heapInsert (p size : Nat) (s : MemState) :
    keyList (heapInsert p size s).nodes = s.nextId :: keyList s.nodes := by
  unfold heapInsert
  cases s.imp_heap with
  | none => simp [keyList]
  | some t =>
      simp only [keyList, List.map_cons]
      rw [show List.map (fun q => q.1) (setNext s.nodes t (some s.nextId))
        = keyList (setNext s.nodes t (some s.nextId)) from rfl, keyList_setNext]
      rfl

theorem WF_heapInsert {s : MemState} (p size : Nat) (hwf : WF s) :
    WF (heapInsert p size s) := by
  obtain ⟨hl, hnd, hb⟩ := hwf
  refine ⟨?_, ?_, ?_⟩
  · cases him : s.imp_heap with
    | none =>
        rw [him] at hl
        have hnil := linkedB_top_none hl
        unfold heapInsert
        rw [him, hnil]
        simp [linkedB]
    | some t =>
        rw [him] at hl
        obtain ⟨nd0, rest, hns, hn0, hrest⟩ := linkedB_cons_shape hl
        have htmem : t ∉ keyList rest := by
          rw [hns] at hnd
          rw [show ((t, nd0) :: rest).map (fun q => q.1) = t :: keyList rest from rfl,
            List.nodup_cons] at hnd
          exact hnd.1
        have hins : (heapInsert p size s).nodes
            = (s.nextId, { next := none, prev := some t, ptr := p, size := size }) ::
              setNext s.nodes t (some s.nextId) := by
          unfold heapInsert
          rw [him]
        have hins2 : (heapInsert p size s).imp_heap = some s.nextId := by
          unfold heapInsert
          rw [him]
        rw [hins, hins2, hns, setNext_cons_self, setNext_eq_of_not_mem _ htmem]
        apply linkedB_cons_build rfl rfl
        apply linkedB_cons_build rfl rfl
        exact hrest
  · have hk := keyList_heapInsert p size s
    rw [show ((heapInsert p size s).nodes.map (fun q => q.1)) =
      keyList (heapInsert p size s).nodes from rfl, hk, List.nodup_cons]
    constructor
    · intro hm
      exact absurd (hb _ hm) (Nat.lt_irrefl _)
    · exact hnd
  · intro k hk
    rw [show ((heapInsert p size s).nodes.map (fun q => q.1)) =
      keyList (heapInsert p size s).nodes from rfl, keyList_heapInsert] at hk
    rw [(heapInsert_frame p size s).2.2.2]
    rcases List.mem_cons.mp hk with h1 | h1
    · rw [h1]; exact Nat.lt_succ_self _
    · exact Nat.lt_succ_of_lt (hb _ h1)

theorem absList_eq (s : MemState) : absList s = contOf s.nodes := rfl

theorem ptrList_eq (s : MemState) : ptrList s = ptrsOf s.nodes := rfl

theorem contOf_append (A B : List (Nat × HeapInfo)) :
    contOf (A ++ B) = contOf A ++ contOf B := by
  simp [contOf]

theorem ptrsOf_append (A B : List (Nat × HeapInfo)) :
    ptrsOf (A ++ B) = ptrsOf A ++ ptrsOf B := by
  simp [ptrsOf]

theorem removeFirstPtr_append {A : List (Nat × Nat)} (B : List (Nat × Nat)) {t : Nat}
    (sz : Nat) (hA : ∀ a ∈ A, (a.1 == t) = false) :
    removeFirstPtr t (A ++ (t, sz) :: B) = A ++ B := by
  induction A with
  | nil => simp [removeFirstPtr]
  | cons a A ih =>
      rw [List.cons_append, removeFirstPtr, hA a (List.mem_cons_self _ _)]
      simp only [Bool.false_eq_true, if_false]
      rw [ih (fun x hx => hA x (List.mem_cons_of_mem _ hx))]
      rw [List.cons_append]

theorem find?_contOf (ns : List (Nat × HeapInfo)) (t : Nat) :
    (contOf ns).find? (fun q => q.1 == t)
      = (ns.find? (fun q => q.2.ptr == t)).map (fun q => (q.2.ptr, q.2.size)) := by
  induction ns with
  | nil => rfl
  | cons q rest ih =>
      show ((q.2.ptr, q.2.size) :: contOf rest).find? (fun q => q.1 == t)
        = ((q :: rest).find? (fun q => q.2.ptr == t)).map (fun q => (q.2.ptr, q.2.size))
      by_cases hp : (q.2.ptr == t) = true
      · rw [@List.find?_cons_of_pos _ (fun q => q.1 == t) (q.2.ptr, q.2.size) (contOf rest) hp,
          @List.find?_cons_of_pos _ (fun q => q.2.ptr == t) q rest hp]
        rfl
      · rw [@List.find?_cons_of_neg _ (fun q => q.1 == t) (q.2.ptr, q.2.size) (contOf rest)
            (by simpa using hp),
          @List.find?_cons_of_neg _ (fun q => q.2.ptr == t) q rest (by simpa using hp)]
        exact ih

theorem mem_free_matched_effects {s : MemState} {t : Nat}
    (hwf : WF s) (hm : t ∈ ptrList s) :
    ∃ sz,
      (absList s).find? (fun q => q.1 == t) = some (t, sz) ∧
      (_mem_free t s).1 = true ∧
      (_mem_free t s).2.memory_data.deallocations_count
        = s.memory_data.deallocations_count + 1 ∧
      (_mem_free t s).2.memory_data.heap_memory_freed
        = s.memory_data.heap_memory_freed + sz ∧
      (_mem_free t s).2.memory_data.allocations_count
        = s.memory_data.allocations_count ∧
      (_mem_free t s).2.memory_data.heap_memory_added
        = s.memory_data.heap_memory_added ∧
      (_mem_free t s).2.memory_data.stack_memory_added
        = s.memory_data.stack_memory_added ∧
      absList (_mem_free t s).2 = removeFirstPtr t (absList s) ∧
      WF (_mem_free t s).2 ∧
      ptrList (_mem_free t s).2 = (ptrList s).erase t ∧
      (_mem_free t s).2.sysLive = s.sysLive.erase t ∧
      (_mem_free t s).2.sysFreeLog = s.sysFreeLog ++ [t] ∧
      (_mem_free t s).2.nextId = s.nextId := by
  obtain ⟨i, nd, hfind⟩ := find?_isSome_of_mem (by exact hm)
  obtain ⟨A, B, hns, hA, hptr⟩ := find?_split hfind
  have heq := mem_free_matched hwf hfind
  have hndk : (keyList s.nodes).Nodup := hwf.2.1
  have hsplitnd := hndk
  rw [hns, keyList_append, keyList_cons, List.nodup_append] at hsplitnd
  have hiA : i ∉ keyList A := fun hmem =>
    hsplitnd.2.2 hmem (List.mem_cons_self _ _)
  have hiB : i ∉ keyList B := fun hmem =>
    (List.nodup_cons.mp hsplitnd.2.1).1 hmem
  have hcont : contOf (unlink s.nodes i nd) = contOf A ++ contOf B := by
    rw [contOf_unlink, hns, delNode_append_self i nd hiA hiB, contOf_append]
  have hcontA : ∀ a ∈ contOf A, (a.1 == t) = false := by
    intro a ha
    obtain ⟨x, hx, hxa⟩ := List.mem_map.mp ha
    rw [← hxa]
    exact hA x hx
  have hcontns : contOf s.nodes = contOf A ++ (t, nd.size) :: contOf B := by
    rw [hns, contOf_append]
    simp [contOf, hptr]
  refine ⟨nd.size, ?_, ?_, ?_, ?_, ?_, ?_, ?_, ?_, ?_, ?_, ?_, ?_, ?_⟩
  · rw [absList_eq, find?_contOf, hfind]
    simp [hptr]
  · rw [heq]
  · rw [heq]
  · rw [heq]
  · rw [heq]
  · rw [heq]
  · rw [heq]
  · rw [heq, absList_eq, absList_eq]
    show contOf (unlink s.nodes i nd) = removeFirstPtr t (contOf s.nodes)
    rw [hcont, hcontns, removeFirstPtr_append (contOf B) nd.size hcontA]
  · rw [heq]
    refine ⟨?_, ?_, ?_⟩
    · show linkedB (unlink s.nodes i nd) none
        (if s.imp_heap == some i then nd.prev else s.imp_heap) = true
      have hl := hwf.1
      rw [hns] at hl
      have hun := linkedB_unlink A B i nd none s.imp_heap hl
        (by rw [← hns]; exact hndk)
        (fun k2 h => absurd h (by simp))
      rw [hns]
      cases hAc : A with
      | nil =>
          rw [hAc] at hun hl
          obtain ⟨htop, _, _⟩ := linkedB_cons_destruct (by rw [List.nil_append] at hl; exact hl)
          rw [htop]
          simp only [beq_self_eq_true, if_true]
          simpa using hun
      | cons a A2 =>
          rw [hAc] at hun hl
          obtain ⟨htop, _, _⟩ := linkedB_cons_destruct (by rw [List.cons_append] at hl; exact hl)
          have hai : ¬ a.1 = i := by
            intro e
            apply hiA
            rw [hAc, ← e]
            exact List.mem_map_of_mem (fun q : Nat × HeapInfo => q.1)
              (List.mem_cons_self a A2)
          rw [htop]
          rw [show ((some a.1 == some i) = false) from by simpa using hai]
          simp only [Bool.false_eq_true, if_false]
          rw [htop] at hun
          simpa using hun
    · show (List.map (fun q => q.1) (unlink s.nodes i nd)).Nodup
      rw [show List.map (fun q => q.1) (unlink s.nodes i nd)
        = keyList (unlink s.nodes i nd) from rfl, keyList_unlink, keyList_delNode]
      exact hndk.filter _
    · intro k hk
      rw [show List.map (fun q => q.1) (unlink s.nodes i nd)
        = keyList (unlink s.nodes i nd) from rfl, keyList_unlink, keyList_delNode] at hk
      exact hwf.2.2 k (List.mem_of_mem_filter hk)
  · rw [heq, ptrList_eq, ptrList_eq]
    show ptrsOf (unlink s.nodes i nd) = (ptrsOf s.nodes).erase t
    have h1 : ptrsOf (unlink s.nodes i nd) = ptrsOf A ++ ptrsOf B := by
      rw [ptrsOf_eq_map_contOf, hcont, List.map_append,
        ← ptrsOf_eq_map_contOf, ← ptrsOf_eq_map_contOf]
    have h2 : ptrsOf s.nodes = ptrsOf A ++ t :: ptrsOf B := by
      rw [hns, ptrsOf_append]
      simp [ptrsOf, hptr]
    have htA : t ∉ ptrsOf A := by
      intro hmem
      obtain ⟨x, hx, hxa⟩ := List.mem_map.mp hmem
      have := hA x hx
      rw [hxa] at this
      simp at this
    rw [h1, h2, List.erase_append_right _ htA, List.erase_cons_head]
  · rw [heq]
  · rw [heq]
  · rw [heq]

/-! Branch equations for the allocating operations. -/

theorem mem_alloc_pos (size p : Nat) (s : MemState) (h : 0 < size) :
    _mem_alloc size (some p) s =
      (p, heapInsert p size
        { s with
            memory_data :=
              { s.memory_data with
                  allocations_count := s.memory_data.allocations_count + 1
                  heap_memory_added := s.memory_data.heap_memory_added + size }
            sysLive := p :: s.sysLive }) := by
  unfold _mem_alloc
  rw [if_pos h]

theorem mem_alloc_fail (size : Nat) (s : MemState) (h : 0 < size) :
    _mem_alloc size none s = (0, s) := by
  unfold _mem_alloc
  rw [if_pos h]

theorem mem_alloc_zero (res : Option Nat) (s : MemState) :
    _mem_alloc 0 res s = (0, s) := rfl

theorem mem_calloc_pos (num : Int) (size p : Nat) (s : MemState) (h : 0 < size) :
    _mem_calloc num size (some p) s =
      (p, heapInsert p size
        { s with
            memory_data :=
              { s.memory_data with
                  allocations_count := s.memory_data.allocations_count + 1
                  heap_memory_added := s.memory_data.heap_memory_added + size }
            sysLive := p :: s.sysLive }) := by
  unfold _mem_calloc
  rw [if_pos h]

theorem mem_calloc_fail (num : Int) (size : Nat) (s : MemState) (h : 0 < size) :
    _mem_calloc num size none s = (0, s) := by
  unfold _mem_calloc
  rw [if_pos h]

theorem mem_calloc_zero (num : Int) (res : Option Nat) (s : MemState) :
    _mem_calloc num 0 res s = (0, s) := rfl

theorem mem_realloc_pos (ptr size p : Nat) (s : MemState) (h : 0 < size) :
    _mem_realloc ptr size (some p) s =
      (p, heapInsert p size
        { s with
            memory_data :=
              { s.memory_data with
                  allocations_count := s.memory_data.allocations_count + 1
                  heap_memory_added := s.memory_data.heap_memory_added + size }
            sysLive := p :: s.sysLive.erase ptr }) := by
  unfold _mem_realloc
  rw [if_pos h]

theorem mem_realloc_fail (ptr size : Nat) (s : MemState) (h : 0 < size) :
    _mem_realloc ptr size none s = (0, s) := by
  unfold _mem_realloc
  rw [if_pos h]

theorem mem_realloc_zero (ptr : Nat) (res : Option Nat) (s : MemState) :
    _mem_realloc ptr 0 res s = (ptr, s) := rfl

theorem ptrsOf_heapInsert (p size : Nat) (s : MemState) :
    ptrsOf (heapInsert p size s).nodes = p :: ptrsOf s.nodes := by
  rw [ptrsOf_eq_map_contOf, contOf_heapInsert, List.map_cons, ← ptrsOf_eq_map_contOf]

theorem WF_of_parts {s s2 : MemState} (h1 : s2.nodes = s.nodes)
    (h2 : s2.imp_heap = s.imp_heap) (h3 : s2.nextId = s.nextId) (hwf : WF s) : WF s2 := by
  unfold WF at hwf ⊢
  rw [h1, h2, h3]
  exact hwf

theorem WF_step {s : MemState} (op : Op) (hwf : WF s) : WF (step s op) := by
  cases op with
  | alloc size res =>
      show WF (_mem_alloc size res s).2
      by_cases h : 0 < size
      · cases res with
        | none => rw [mem_alloc_fail size s h]; exact hwf
        | some p =>
            rw [mem_alloc_pos size p s h]
            exact WF_heapInsert p size (WF_of_parts rfl rfl rfl hwf)
      · have hz : size = 0 := by omega
        subst hz
        rw [mem_alloc_zero]
        exact hwf
  | calloc num size res =>
      show WF (_mem_calloc num size res s).2
      by_cases h : 0 < size
      · cases res with
        | none => rw [mem_calloc_fail num size s h]; exact hwf
        | some p =>
            rw [mem_calloc_pos num size p s h]
            exact WF_heapInsert p size (WF_of_parts rfl rfl rfl hwf)
      · have hz : size = 0 := by omega
        subst hz
        rw [mem_calloc_zero]
        exact hwf
  | realloc ptr size res =>
      show WF (_mem_realloc ptr size res s).2
      by_cases h : 0 < size
      · cases res with
        | none => rw [mem_realloc_fail ptr size s h]; exact hwf
        | some p =>
            rw [mem_realloc_pos ptr size p s h]
            exact WF_heapInsert p size (WF_of_parts rfl rfl rfl hwf)
      · have hz : size = 0 := by omega
        subst hz
        rw [mem_realloc_zero]
        exact hwf
  | free ptr =>
      show WF (_mem_free ptr s).2
      by_cases hm : ptr ∈ ptrList s
      · obtain ⟨sz, h⟩ := mem_free_matched_effects hwf hm
        exact h.2.2.2.2.2.2.2.2.1
      · rw [mem_free_unmatched (by rw [← ptrList_eq]; exact hm)]
        exact WF_of_parts rfl rfl rfl hwf
  | stackInit valid size =>
      show WF (_mem_stack_init valid size s).2
      cases valid with
      | false => exact hwf
      | true => exact WF_of_parts rfl rfl rfl hwf

/-! Projected branch equations. -/

theorem mem_alloc_pos_state (size p : Nat) (s : MemState) (h : 0 < size) :
    (_mem_alloc size (some p) s).2 =
      heapInsert p size
        { s with
            memory_data :=
              { s.memory_data with
                  allocations_count := s.memory_data.allocations_count + 1
                  heap_memory_added := s.memory_data.heap_memory_added + size }
            sysLive := p :: s.sysLive } := by
  rw [mem_alloc_pos size p s h]

theorem mem_calloc_pos_state (num : Int) (size p : Nat) (s : MemState) (h : 0 < size) :
    (_mem_calloc num size (some p) s).2 =
      heapInsert p size
        { s with
            memory_data :=
              { s.memory_data with
                  allocations_count := s.memory_data.allocations_count + 1
                  heap_memory_added := s.memory_data.heap_memory_added + size }
            sysLive := p :: s.sysLive } := by
  rw [mem_calloc_pos num size p s h]

theorem mem_realloc_pos_state (ptr size p : Nat) (s : MemState) (h : 0 < size) :
    (_mem_realloc ptr size (some p) s).2 =
      heapInsert p size
        { s with
            memory_data :=
              { s.memory_data with
                  allocations_count := s.memory_data.allocations_count + 1
                  heap_memory_added := s.memory_data.heap_memory_added + size }
            sysLive := p :: s.sysLive.erase ptr } := by
  rw [mem_realloc_pos ptr size p s h]

/-! Counter accounting. -/

theorem removeFirstPtr_sum_len {cont : List (Nat × Nat)} {t sz : Nat} :
    cont.find? (fun q => q.1 == t) = some (t, sz) →
    ((removeFirstPtr t cont).map (fun q => q.2)).sum + sz
        = (cont.map (fun q => q.2)).sum ∧
    (removeFirstPtr t cont).length + 1 = cont.length := by
  induction cont with
  | nil => intro h; simp at h
  | cons q rest ih =>
      intro h
      by_cases hp : (q.1 == t) = true
      · rw [@List.find?_cons_of_pos _ (fun q => q.1 == t) q rest hp] at h
        have hq : q = (t, sz) := Option.some.inj h
        subst hq
        rw [removeFirstPtr, if_pos hp]
        simp
        omega
      · rw [@List.find?_cons_of_neg _ (fun q => q.1 == t) q rest (by simpa using hp)] at h
        obtain ⟨h1, h2⟩ := ih h
        rw [removeFirstPtr, if_neg hp]
        simp only [List.map_cons, List.sum_cons, List.length_cons]
        omega

theorem nodes_length_heapInsert (p size : Nat) (s : MemState) :
    (heapInsert p size s).nodes.length = s.nodes.length + 1 := by
  have h := contOf_heapInsert p size s
  have h1 : (contOf (heapInsert p size s).nodes).length
      = ((p, size) :: contOf s.nodes).length := by rw [h]
  simp only [contOf, List.length_map, List.length_cons] at h1
  exact h1

theorem sizeSum_heapInsert (p size : Nat) (s : MemState) :
    sizeSum (heapInsert p size s).nodes = size + sizeSum s.nodes := by
  rw [sizeSum_eq_sum_contOf, contOf_heapInsert, List.map_cons, List.sum_cons,
    ← sizeSum_eq_sum_contOf]

theorem accounting_step (s : MemState) (op : Op) (hwf : WF s)
    (hsum : s.memory_data.heap_memory_added
      = s.memory_data.heap_memory_freed + sizeSum s.nodes)
    (hcnt : s.memory_data.allocations_count
      = s.memory_data.deallocations_count + s.nodes.length) :
    (step s op).memory_data.heap_memory_added
      = (step s op).memory_data.heap_memory_freed + sizeSum (step s op).nodes ∧
    (step s op).memory_data.allocations_count
      = (step s op).memory_data.deallocations_count + (step s op).nodes.length := by
  cases op with
  | alloc size res =>
      simp only [step]
      by_cases h : 0 < size
      · cases res with
        | none => rw [mem_alloc_fail size s h]; exact ⟨hsum, hcnt⟩
        | some p =>
            rw [mem_alloc_pos_state size p s h, sizeSum_heapInsert,
              nodes_length_heapInsert, (heapInsert_frame p size _).1]
            dsimp only
            omega
      · have hz : size = 0 := by omega
        subst hz
        rw [mem_alloc_zero]
        exact ⟨hsum, hcnt⟩
  | calloc num size res =>
      simp only [step]
      by_cases h : 0 < size
      · cases res with
        | none => rw [mem_calloc_fail num size s h]; exact ⟨hsum, hcnt⟩
        | some p =>
            rw [mem_calloc_pos_state num size p s h, sizeSum_heapInsert,
              nodes_length_heapInsert, (heapInsert_frame p size _).1]
            dsimp only
            omega
      · have hz : size = 0 := by omega
        subst hz
        rw [mem_calloc_zero]
        exact ⟨hsum, hcnt⟩
  | realloc ptr size res =>
      simp only [step]
      by_cases h : 0 < size
      · cases res with
        | none => rw [mem_realloc_fail ptr size s h]; exact ⟨hsum, hcnt⟩
        | some p =>
            rw [mem_realloc_pos_state ptr size p s h, sizeSum_heapInsert,
              nodes_length_heapInsert, (heapInsert_frame p size _).1]
            dsimp only
            omega
      · have hz : size = 0 := by omega
        subst hz
        rw [mem_realloc_zero]
        exact ⟨hsum, hcnt⟩
  | free ptr =>
      simp only [step]
      by_cases hm : ptr ∈ ptrList s
      · obtain ⟨sz, hfind, _, hde, hfr, hal, had, hst, habs, _⟩ :=
          mem_free_matched_effects hwf hm
        obtain ⟨hsum2, hlen2⟩ := removeFirstPtr_sum_len hfind
        rw [← habs] at hsum2 hlen2
        have hss : sizeSum (_mem_free ptr s).2.nodes + sz = sizeSum s.nodes := by
          rw [sizeSum_eq_sum_contOf, sizeSum_eq_sum_contOf]
          exact hsum2
        have hll : (_mem_free ptr s).2.nodes.length + 1 = s.nodes.length := by
          have e1 : (absList (_mem_free ptr s).2).length
              = (_mem_free ptr s).2.nodes.length := List.length_map _ _
          have e2 : (absList s).length = s.nodes.length := List.length_map _ _
          rw [e1, e2] at hlen2
          exact hlen2
        rw [hde, hfr, hal, had]
        exact ⟨by omega, by omega⟩
      · rw [mem_free_unmatched (by rw [← ptrList_eq]; exact hm)]
        exact ⟨hsum, hcnt⟩
  | stackInit valid size =>
      simp only [step]
      cases valid with
      | false => exact ⟨hsum, hcnt⟩
      | true => exact ⟨hsum, hcnt⟩

theorem WF_initState : WF initState := by
  refine ⟨rfl, List.nodup_nil, ?_⟩
  intro k hk
  simp [initState] at hk

theorem accounting_run (ops : List Op) :
    ∀ s : MemState, WF s →
      s.memory_data.heap_memory_added
        = s.memory_data.heap_memory_freed + sizeSum s.nodes →
      s.memory_data.allocations_count
        = s.memory_data.deallocations_count + s.nodes.length →
      WF (runOps s ops) ∧
      (runOps s ops).memory_data.heap_memory_added
        = (runOps s ops).memory_data.heap_memory_freed + sizeSum (runOps s ops).nodes ∧
      (runOps s ops).memory_data.allocations_count
        = (runOps s ops).memory_data.deallocations_count + (runOps s ops).nodes.length := by
  induction ops with
  | nil => intro s h1 h2 h3; exact ⟨h1, h2, h3⟩
  | cons op ops ih =>
      intro s h1 h2 h3
      obtain ⟨g2, g3⟩ := accounting_step s op h1 h2 h3
      exact ih (step s op) (WF_step op h1) g2 g3

theorem fresh_of_validOp_alloc {s : MemState} {size p : Nat} {res : Option Nat}
    (hv : validOp s (.alloc size res) = true) (h : 0 < size) (hres : res = some p) :
    p ≠ 0 ∧ p ∉ s.sysLive := by
  subst hres
  simp only [validOp, Bool.or_eq_true, beq_iff_eq] at hv
  rcases hv with hz | hf
  · omega
  · simpa [freshRes] using hf

theorem fresh_of_validOp_calloc {s : MemState} {num : Int} {size p : Nat} {res : Option Nat}
    (hv : validOp s (.calloc num size res) = true) (h : 0 < size) (hres : res = some p) :
    p ≠ 0 ∧ p ∉ s.sysLive := by
  subst hres
  simp only [validOp, Bool.or_eq_true, beq_iff_eq] at hv
  rcases hv with hz | hf
  · omega
  · simpa [freshRes] using hf

theorem nonzero_of_validOp_realloc {s : MemState} {ptr size p : Nat} {res : Option Nat}
    (hv : validOp s (.realloc ptr size res) = true) (h : 0 < size) (hres : res = some p) :
    p ≠ 0 := by
  subst hres
  simp only [validOp, Bool.or_eq_true, Bool.and_eq_true, beq_iff_eq] at hv
  rcases hv with hz | ⟨_, hf⟩
  · omega
  · simp only [decide_eq_true_eq, Bool.and_eq_true] at hf
    exact hf.1

theorem ptrList_alloc_pos (size p : Nat) (s : MemState) (h : 0 < size) :
    ptrList (_mem_alloc size (some p) s).2 = p :: ptrList s := by
  rw [mem_alloc_pos_state size p s h, ptrList_eq, ptrsOf_heapInsert]
  rfl

theorem ptrList_calloc_pos (num : Int) (size p : Nat) (s : MemState) (h : 0 < size) :
    ptrList (_mem_calloc num size (some p) s).2 = p :: ptrList s := by
  rw [mem_calloc_pos_state num size p s h, ptrList_eq, ptrsOf_heapInsert]
  rfl

theorem ptrList_realloc_pos (ptr size p : Nat) (s : MemState) (h : 0 < size) :
    ptrList (_mem_realloc ptr size (some p) s).2 = p :: ptrList s := by
  rw [mem_realloc_pos_state ptr size p s h, ptrList_eq, ptrsOf_heapInsert]
  rfl

theorem sysLive_alloc_pos (size p : Nat) (s : MemState) (h : 0 < size) :
    (_mem_alloc size (some p) s).2.sysLive = p :: s.sysLive := by
  rw [mem_alloc_pos_state size p s h, (heapInsert_frame p size _).2.1]

theorem sysLive_calloc_pos (num : Int) (size p : Nat) (s : MemState) (h : 0 < size) :
    (_mem_calloc num size (some p) s).2.sysLive = p :: s.sysLive := by
  rw [mem_calloc_pos_state num size p s h, (heapInsert_frame p size _).2.1]

theorem sysLive_realloc_pos (ptr size p : Nat) (s : MemState) (h : 0 < size) :
    (_mem_realloc ptr size (some p) s).2.sysLive = p :: s.sysLive.erase ptr := by
  rw [mem_realloc_pos_state ptr size p s h, (heapInsert_frame p size _).2.1]

theorem nonzero_run (ops : List Op) :
    ∀ s : MemState, validRun s ops = true → WF s →
      (∀ a ∈ ptrList s, a ≠ 0) →
      WF (runOps s ops) ∧ ∀ a ∈ ptrList (runOps s ops), a ≠ 0 := by
  induction ops with
  | nil => intro s _ hwf h; exact ⟨hwf, h⟩
  | cons op ops ih =>
      intro s hv hwf h
      simp only [validRun, Bool.and_eq_true] at hv
      refine ih (step s op) hv.2 (WF_step op hwf) ?_
      cases op with
      | alloc size res =>
          by_cases hsz : 0 < size
          · cases res with
            | none =>
                show ∀ a ∈ ptrList (_mem_alloc size none s).2, a ≠ 0
                rw [mem_alloc_fail size s hsz]
                exact h
            | some p =>
                show ∀ a ∈ ptrList (_mem_alloc size (some p) s).2, a ≠ 0
                rw [ptrList_alloc_pos size p s hsz]
                intro a ha
                rcases List.mem_cons.mp ha with h1 | h1
                · rw [h1]; exact (fresh_of_validOp_alloc hv.1 hsz rfl).1
                · exact h a h1
          · have hz : size = 0 := by omega
            subst hz
            show ∀ a ∈ ptrList (_mem_alloc 0 res s).2, a ≠ 0
            rw [mem_alloc_zero]
            exact h
      | calloc num size res =>
          by_cases hsz : 0 < size
          · cases res with
            | none =>
                show ∀ a ∈ ptrList (_mem_calloc num size none s).2, a ≠ 0
                rw [mem_calloc_fail num size s hsz]
                exact h
            | some p =>
                show ∀ a ∈ ptrList (_mem_calloc num size (some p) s).2, a ≠ 0
                rw [ptrList_calloc_pos num size p s hsz]
                intro a ha
                rcases List.mem_cons.mp ha with h1 | h1
                · rw [h1]; exact (fresh_of_validOp_calloc hv.1 hsz rfl).1
                · exact h a h1
          · have hz : size = 0 := by omega
            subst hz
            show ∀ a ∈ ptrList (_mem_calloc num 0 res s).2, a ≠ 0
            rw [mem_calloc_zero]
            exact h
      | realloc ptr size res =>
          by_cases hsz : 0 < size
          · cases res with
            | none =>
                show ∀ a ∈ ptrList (_mem_realloc ptr size none s).2, a ≠ 0
                rw [mem_realloc_fail ptr size s hsz]
                exact h
            | some p =>
                show ∀ a ∈ ptrList (_mem_realloc ptr size (some p) s).2, a ≠ 0
                rw [ptrList_realloc_pos ptr size p s hsz]
                intro a ha
                rcases List.mem_cons.mp ha with h1 | h1
                · rw [h1]; exact nonzero_of_validOp_realloc hv.1 hsz rfl
                · exact h a h1
          · have hz : size = 0 := by omega
            subst hz
            show ∀ a ∈ ptrList (_mem_realloc ptr 0 res s).2, a ≠ 0
            rw [mem_realloc_zero]
            exact h
      | free ptr =>
          show ∀ a ∈ ptrList (_mem_free ptr s).2, a ≠ 0
          by_cases hm : ptr ∈ ptrList s
          · obtain ⟨sz, hfind, hret, hde, hfr, hal, had, hst, habs, hwf2, hpl, hsl, hlog, hnext⟩ :=
              mem_free_matched_effects hwf hm
            rw [hpl]
            intro a ha
            exact h a (List.mem_of_mem_erase ha)
          · rw [mem_free_unmatched (by rw [← ptrList_eq]; exact hm)]
            exact h
      | stackInit valid size =>
          show ∀ a ∈ ptrList (_mem_stack_init valid size s).2, a ≠ 0
          cases valid with
          | false => exact h
          | true => exact h

theorem runOps_cons (s : MemState) (op : Op) (ops : List Op) :
    runOps s (op :: ops) = runOps (step s op) ops := rfl

theorem specLive_cons (acc : List Nat) (op : Op) (ops : List Op) :
    specLive acc (op :: ops) = specLive (specLiveStep acc op) ops := rfl

theorem sync_step {s : MemState} (op : Op) (hv : validOp s op = true) (hwf : WF s)
    (h1 : ptrList s = s.sysLive) (h2 : (ptrList s).Nodup)
    (hnr : ∀ ptr size res, op ≠ .realloc ptr size res) :
    ptrList (step s op) = (step s op).sysLive ∧ (ptrList (step s op)).Nodup := by
  cases op with
  | alloc size res =>
      simp only [step]
      by_cases hsz : 0 < size
      · cases res with
        | none =>
            rw [mem_alloc_fail size s hsz]
            exact ⟨h1, h2⟩
        | some p =>
            obtain ⟨hp0, hpl⟩ := fresh_of_validOp_alloc hv hsz rfl
            rw [ptrList_alloc_pos size p s hsz, sysLive_alloc_pos size p s hsz, h1]
            exact ⟨rfl, List.nodup_cons.mpr ⟨hpl, h1 ▸ h2⟩⟩
      · have hz : size = 0 := by omega
        subst hz
        rw [mem_alloc_zero]
        exact ⟨h1, h2⟩
  | calloc num size res =>
      simp only [step]
      by_cases hsz : 0 < size
      · cases res with
        | none =>
            rw [mem_calloc_fail num size s hsz]
            exact ⟨h1, h2⟩
        | some p =>
            obtain ⟨hp0, hpl⟩ := fresh_of_validOp_calloc hv hsz rfl
            rw [ptrList_calloc_pos num size p s hsz, sysLive_calloc_pos num size p s hsz, h1]
            exact ⟨rfl, List.nodup_cons.mpr ⟨hpl, h1 ▸ h2⟩⟩
      · have hz : size = 0 := by omega
        subst hz
        rw [mem_calloc_zero]
        exact ⟨h1, h2⟩
  | realloc ptr size res => exact absurd rfl (hnr ptr size res)
  | free ptr =>
      simp only [step]
      by_cases hm : ptr ∈ ptrList s
      · obtain ⟨sz, hfind, hret, hde, hfr, hal, had, hst, habs, hwf2, hpl, hsl, hlog, hnext⟩ :=
          mem_free_matched_effects hwf hm
        rw [hpl, hsl, h1]
        exact ⟨rfl, (h1 ▸ h2).erase ptr⟩
      · rw [mem_free_unmatched (by rw [← ptrList_eq]; exact hm)]
        refine ⟨?_, h2⟩
        show ptrList s = s.sysLive.erase ptr
        rw [← h1, List.erase_of_not_mem hm]
  | stackInit valid size =>
      simp only [step]
      cases valid with
      | false => exact ⟨h1, h2⟩
      | true => exact ⟨h1, h2⟩

theorem spec_step_alloc {s : MemState} (size : Nat) (res : Option Nat) :
    ptrList (step s (.alloc size res)) = specLiveStep (ptrList s) (.alloc size res) := by
  by_cases hsz : 0 < size
  · cases res with
    | none =>
        show ptrList (_mem_alloc size none s).2 = _
        rw [mem_alloc_fail size s hsz]
        simp [specLiveStep, hsz]
    | some p =>
        show ptrList (_mem_alloc size (some p) s).2 = _
        rw [ptrList_alloc_pos size p s hsz]
        simp [specLiveStep, hsz]
  · have hz : size = 0 := by omega
    subst hz
    show ptrList (_mem_alloc 0 res s).2 = _
    rw [mem_alloc_zero]
    simp [specLiveStep]

theorem spec_step_free {s : MemState} (t : Nat) (hwf : WF s) :
    ptrList (step s (.free t)) = specLiveStep (ptrList s) (.free t) := by
  show ptrList (_mem_free t s).2 = (ptrList s).erase t
  by_cases hm : t ∈ ptrList s
  · obtain ⟨sz, hfind, hret, hde, hfr, hal, had, hst, habs, hwf2, hpl, hsl, hlog, hnext⟩ :=
      mem_free_matched_effects hwf hm
    exact hpl
  · rw [mem_free_unmatched (by rw [← ptrList_eq]; exact hm)]
    show ptrList s = (ptrList s).erase t
    rw [List.erase_of_not_mem hm]

theorem sys_run (ops : List Op) :
    ∀ s : MemState, noResize ops = true → validRun s ops = true → WF s →
      ptrList s = s.sysLive → (ptrList s).Nodup →
      WF (runOps s ops) ∧ ptrList (runOps s ops) = (runOps s ops).sysLive ∧
        (ptrList (runOps s ops)).Nodup := by
  induction ops with
  | nil => intro s _ _ hwf h1 h2; exact ⟨hwf, h1, h2⟩
  | cons op ops ih =>
      intro s hnr hv hwf h1 h2
      simp only [validRun, Bool.and_eq_true] at hv
      have hnr2 : noResize ops = true := by
        cases op <;> simpa [noResize] using hnr
      have hnotre : ∀ ptr size res, op ≠ Op.realloc ptr size res := by
        intro ptr size res he
        subst he
        simpa [noResize] using hnr
      obtain ⟨g1, g2⟩ := sync_step op hv.1 hwf h1 h2 hnotre
      exact ih (step s op) hnr2 hv.2 (WF_step op hwf) g1 g2

theorem spec_run (ops : List Op) :
    ∀ s : MemState, allocFreeOnly ops = true → validRun s ops = true → WF s →
      ptrList s = s.sysLive → (ptrList s).Nodup →
      WF (runOps s ops) ∧ ptrList (runOps s ops) = specLive (ptrList s) ops ∧
        (ptrList (runOps s ops)).Nodup := by
  induction ops with
  | nil => intro s _ _ hwf h1 h2; exact ⟨hwf, rfl, h2⟩
  | cons op ops ih =>
      intro s haf hv hwf h1 h2
      simp only [validRun, Bool.and_eq_true] at hv
      cases op with
      | alloc size res =>
          have haf2 : allocFreeOnly ops = true := by simpa [allocFreeOnly] using haf
          obtain ⟨g1, g2⟩ := sync_step (.alloc size res) hv.1 hwf h1 h2 (by intro _ _ _ h; cases h)
          obtain ⟨w1, w2, w3⟩ := ih (step s (.alloc size res)) haf2 hv.2
            (WF_step (.alloc size res) hwf) g1 g2
          refine ⟨w1, ?_, w3⟩
          rw [runOps_cons, specLive_cons, w2, spec_step_alloc size res]
      | calloc num size res => simp [allocFreeOnly] at haf
      | realloc ptr size res => simp [allocFreeOnly] at haf
      | free t =>
          have haf2 : allocFreeOnly ops = true := by simpa [allocFreeOnly] using haf
          obtain ⟨g1, g2⟩ := sync_step (.free t) hv.1 hwf h1 h2 (by intro _ _ _ h; cases h)
          obtain ⟨w1, w2, w3⟩ := ih (step s (.free t)) haf2 hv.2
            (WF_step (.free t) hwf) g1 g2
          refine ⟨w1, ?_, w3⟩
          rw [runOps_cons, specLive_cons, w2, spec_step_free t hwf]
      | stackInit valid size => simp [allocFreeOnly] at haf

theorem walkChain_eq (rest : List (Nat × HeapInfo)) :
    ∀ (pre : List (Nat × HeapInfo)) (nxt top : Option Nat) (fuel : Nat),
      linkedB rest nxt top = true →
      (keyList (pre ++ rest)).Nodup →
      rest.length ≤ fuel →
      walkChain (pre ++ rest) fuel top = rest := by
  induction rest with
  | nil =>
      intro pre nxt top fuel hl hnd hf
      have htop : top = none := by simpa [linkedB] using hl
      subst htop
      cases fuel <;> rfl
  | cons q rest ih =>
      intro pre nxt top fuel hl hnd hf
      obtain ⟨i, nd⟩ := q
      obtain ⟨htop, hnext, hrest⟩ := linkedB_cons_destruct hl
      subst htop
      cases fuel with
      | zero => simp at hf
      | succ fuel =>
          have hipre : i ∉ keyList pre := by
            rw [keyList_append, List.nodup_append] at hnd
            intro hm
            exact hnd.2.2 hm (by simp [keyList])
          have hig : getNode (pre ++ (i, nd) :: rest) i = some nd := by
            rw [getNode_append_of_not_mem _ hipre, getNode_cons]
            simp
          rw [walkChain, hig]
          show (i, nd) :: walkChain (pre ++ (i, nd) :: rest) fuel nd.prev
            = (i, nd) :: rest
          have hre := ih (pre ++ [(i, nd)]) (some i) nd.prev fuel hrest
            (by rw [← List.append_cons]; exact hnd)
            (Nat.le_of_succ_le_succ hf)
          rw [← List.append_cons] at hre
          rw [hre]

/-! Claim theorems. -/

/-- C7: a zero-size request is a no-op: `_mem_alloc 0` and `_mem_calloc _ 0`
return the null handle, `_mem_realloc ptr 0` returns the original handle
unchanged, and in all three cases the whole state (registry and every
counter) is left unchanged. -/
theorem zero_size_noop (res : Option Nat) (num : Int) (ptr : Nat) (s : MemState) :
    _mem_alloc 0 res s = (0, s) ∧
    _mem_calloc num 0 res s = (0, s) ∧
    _mem_realloc ptr 0 res s = (ptr, s) :=
  ⟨rfl, rfl, rfl⟩

/-- C3: for every count > 0 and size > 0, a successful `_mem_calloc`
returns the allocator's handle, increments `allocations_count` by 1 and
`heap_memory_added` by the element size `size` only (not `num * size`),
and the inserted record (head of the tail-first content listing) carries
exactly the address and the element size `size`. -/
theorem mem_calloc_counts_element_size (num : Int) (size p : Nat) (s : MemState)
    (hnum : 0 < num) (hsize : 0 < size) :
    (_mem_calloc num size (some p) s).1 = p ∧
    (_mem_calloc num size (some p) s).2.memory_data.allocations_count
      = s.memory_data.allocations_count + 1 ∧
    (_mem_calloc num size (some p) s).2.memory_data.heap_memory_added
      = s.memory_data.heap_memory_added + size ∧
    absList (_mem_calloc num size (some p) s).2 = (p, size) :: absList s := by
  refine ⟨?_, ?_, ?_, ?_⟩
  · rw [mem_calloc_pos num size p s hsize]
  · rw [mem_calloc_pos_state num size p s hsize, (heapInsert_frame p size _).1]
  · rw [mem_calloc_pos_state num size p s hsize, (heapInsert_frame p size _).1]
  · rw [mem_calloc_pos_state num size p s hsize, absList_eq, contOf_heapInsert]
    rfl

/-- C3 witness: `zero_allocate(3, 8)` succeeding with handle 1 on the
start state. -/
theorem mem_calloc_counts_element_size_witness :
    (_mem_calloc 3 8 (some 1) initState).1 = 1 ∧
    (_mem_calloc 3 8 (some 1) initState).2.memory_data.allocations_count
      = initState.memory_data.allocations_count + 1 ∧
    (_mem_calloc 3 8 (some 1) initState).2.memory_data.heap_memory_added
      = initState.memory_data.heap_memory_added + 8 ∧
    absList (_mem_calloc 3 8 (some 1) initState).2 = (1, 8) :: absList initState :=
  mem_calloc_counts_element_size 3 8 1 initState (by decide) (by decide)

/-- C4: for every nonnull handle and size > 0, a successful
`_mem_realloc` returns the allocator's handle and inserts a fresh record
for it at the tail while removing nothing: the whole previous content
listing (in particular any record for the old handle) survives unchanged
behind the new record, and the number of live records grows by exactly
one. -/
theorem mem_realloc_inserts_without_removing (ptr size p : Nat) (s : MemState)
    (hptr : ptr ≠ 0) (hsize : 0 < size) :
    (_mem_realloc ptr size (some p) s).1 = p ∧
    absList (_mem_realloc ptr size (some p) s).2 = (p, size) :: absList s ∧
    (_mem_realloc ptr size (some p) s).2.nodes.length = s.nodes.length + 1 := by
  refine ⟨?_, ?_, ?_⟩
  · rw [mem_realloc_pos ptr size p s hsize]
  · rw [mem_realloc_pos_state ptr size p s hsize, absList_eq, contOf_heapInsert]
    rfl
  · rw [mem_realloc_pos_state ptr size p s hsize, nodes_length_heapInsert]

/-- C4 witness: resizing handle 1 (live, 8 bytes) to 16 bytes with the
system allocator returning the same address 1: the stale record stays. -/
theorem mem_realloc_inserts_without_removing_witness :
    (_mem_realloc 1 16 (some 1) (runOps initState [Op.alloc 8 (some 1)])).1 = 1 ∧
    absList (_mem_realloc 1 16 (some 1) (runOps initState [Op.alloc 8 (some 1)])).2
      = (1, 16) :: absList (runOps initState [Op.alloc 8 (some 1)]) ∧
    (_mem_realloc 1 16 (some 1) (runOps initState [Op.alloc 8 (some 1)])).2.nodes.length
      = (runOps initState [Op.alloc 8 (some 1)]).nodes.length + 1 :=
  mem_realloc_inserts_without_removing 1 16 1 (runOps initState [Op.alloc 8 (some 1)])
    (by decide) (by decide)

/-- C6: releasing a handle whose address matches no live record returns
the no-match signal `false` and leaves the registry (`nodes`,
`imp_heap`) and all five counters (`memory_data`) untouched; the only
effect is on the ghost system-allocator side: the address is still
passed to the system `free` unconditionally. -/
theorem mem_free_unmatched_no_change (s : MemState) (t : Nat)
    (hm : t ∉ ptrList s) :
    _mem_free t s = (false,
      { s with sysLive := s.sysLive.erase t, sysFreeLog := s.sysFreeLog ++ [t] }) :=
  mem_free_unmatched (by rw [← ptrList_eq]; exact hm)

/-- C6 witness: releasing handle 1 a second time after
allocate(16) = 1; release(1). -/
theorem mem_free_unmatched_no_change_witness :
    _mem_free 1 (runOps initState [Op.alloc 16 (some 1), Op.free 1]) = (false,
      { runOps initState [Op.alloc 16 (some 1), Op.free 1] with
          sysLive := (runOps initState [Op.alloc 16 (some 1), Op.free 1]).sysLive.erase 1
          sysFreeLog :=
            (runOps initState [Op.alloc 16 (some 1), Op.free 1]).sysFreeLog ++ [1] }) :=
  mem_free_unmatched_no_change (runOps initState [Op.alloc 16 (some 1), Op.free 1]) 1
    (by decide)

/-- C8: every public operation (allocate, zero-allocate, resize, release,
stack-init) leaves each of the five usage counters greater than or equal
to its value before the operation: no counter ever decreases. -/
theorem counters_monotone (s : MemState) (op : Op) :
    s.memory_data.allocations_count ≤ (step s op).memory_data.allocations_count ∧
    s.memory_data.deallocations_count ≤ (step s op).memory_data.deallocations_count ∧
    s.memory_data.heap_memory_added ≤ (step s op).memory_data.heap_memory_added ∧
    s.memory_data.heap_memory_freed ≤ (step s op).memory_data.heap_memory_freed ∧
    s.memory_data.stack_memory_added ≤ (step s op).memory_data.stack_memory_added := by
  cases op with
  | alloc size res =>
      simp only [step]
      by_cases hsz : 0 < size
      · cases res with
        | none =>
            rw [mem_alloc_fail size s hsz]
            exact ⟨le_refl _, le_refl _, le_refl _, le_refl _, le_refl _⟩
        | some p =>
            rw [mem_alloc_pos_state size p s hsz, (heapInsert_frame p size _).1]
            exact ⟨Nat.le_succ _, le_refl _, Nat.le_add_right _ _, le_refl _, le_refl _⟩
      · have hz : size = 0 := by omega
        subst hz
        rw [mem_alloc_zero]
        exact ⟨le_refl _, le_refl _, le_refl _, le_refl _, le_refl _⟩
  | calloc num size res =>
      simp only [step]
      by_cases hsz : 0 < size
      · cases res with
        | none =>
            rw [mem_calloc_fail num size s hsz]
            exact ⟨le_refl _, le_refl _, le_refl _, le_refl _, le_refl _⟩
        | some p =>
            rw [mem_calloc_pos_state num size p s hsz, (heapInsert_frame p size _).1]
            exact ⟨Nat.le_succ _, le_refl _, Nat.le_add_right _ _, le_refl _, le_refl _⟩
      · have hz : size = 0 := by omega
        subst hz
        rw [mem_calloc_zero]
        exact ⟨le_refl _, le_refl _, le_refl _, le_refl _, le_refl _⟩
  | realloc ptr size res =>
      simp only [step]
      by_cases hsz : 0 < size
      · cases res with
        | none =>
            rw [mem_realloc_fail ptr size s hsz]
            exact ⟨le_refl _, le_refl _, le_refl _, le_refl _, le_refl _⟩
        | some p =>
            rw [mem_realloc_pos_state ptr size p s hsz, (heapInsert_frame p size _).1]
            exact ⟨Nat.le_succ _, le_refl _, Nat.le_add_right _ _, le_refl _, le_refl _⟩
      · have hz : size = 0 := by omega
        subst hz
        rw [mem_realloc_zero]
        exact ⟨le_refl _, le_refl _, le_refl _, le_refl _, le_refl _⟩
  | free ptr =>
      simp only [step]
      unfold _mem_free
      cases hf : findFrom s.nodes ptr s.nodes.length s.imp_heap with
      | none => exact ⟨le_refl _, le_refl _, le_refl _, le_refl _, le_refl _⟩
      | some q =>
          obtain ⟨i, nd⟩ := q
          exact ⟨le_refl _, Nat.le_succ _, le_refl _, Nat.le_add_right _ _, le_refl _⟩
  | stackInit valid size =>
      simp only [step]
      cases valid with
      | false => exact ⟨le_refl _, le_refl _, le_refl _, le_refl _, le_refl _⟩
      | true =>
          show s.memory_data.allocations_count
              ≤ (_mem_stack_init true size s).2.memory_data.allocations_count ∧ _
          unfold _mem_stack_init
          rw [if_pos rfl]
          exact ⟨le_refl _, le_refl _, le_refl _, le_refl _, Nat.le_add_right _ _⟩

/-- C10: after any sequence of public operations from the start state,
`deallocations_count` never exceeds `allocations_count`,
`heap_memory_freed` never exceeds `heap_memory_added`, and the number of
live records equals `allocations_count - deallocations_count`. -/
theorem counter_registry_accounting (ops : List Op) :
    (runOps initState ops).memory_data.deallocations_count
      ≤ (runOps initState ops).memory_data.allocations_count ∧
    (runOps initState ops).memory_data.heap_memory_freed
      ≤ (runOps initState ops).memory_data.heap_memory_added ∧
    (runOps initState ops).nodes.length
      = (runOps initState ops).memory_data.allocations_count
        - (runOps initState ops).memory_data.deallocations_count := by
  obtain ⟨_, h2, h3⟩ := accounting_run ops initState WF_initState rfl rfl
  exact ⟨by omega, by omega, by omega⟩

/-- C1: on a well-formed registry, releasing a handle whose address
matches at least one live record returns the matched signal `true`,
increments `deallocations_count` by 1 and `heap_memory_freed` by the
matched record's recorded size, and removes exactly the
most-recently-inserted record with that address: the content listing
(tail-first, i.e. most-recent first, exactly the order the scan from the
tail following `prev` visits) loses its first record with that address
and nothing else, and the matched record is the first such record of
that listing. -/
theorem mem_free_removes_most_recent_match (s : MemState) (t : Nat)
    (hwf : WF s) (hm : t ∈ ptrList s) :
    ∃ sz, (absList s).find? (fun q => q.1 == t) = some (t, sz) ∧
      (_mem_free t s).1 = true ∧
      (_mem_free t s).2.memory_data.deallocations_count
        = s.memory_data.deallocations_count + 1 ∧
      (_mem_free t s).2.memory_data.heap_memory_freed
        = s.memory_data.heap_memory_freed + sz ∧
      absList (_mem_free t s).2 = removeFirstPtr t (absList s) := by
  obtain ⟨sz, h1, h2, h3, h4, _, _, _, h8, _⟩ := mem_free_matched_effects hwf hm
  exact ⟨sz, h1, h2, h3, h4, h8⟩

/-- C1 witness: allocate(16) = 1, allocate(32) = 2, then release(1). -/
theorem mem_free_removes_most_recent_match_witness :
    ∃ sz, (absList (runOps initState [Op.alloc 16 (some 1), Op.alloc 32 (some 2)])).find?
        (fun q => q.1 == 1) = some (1, sz) ∧
      (_mem_free 1 (runOps initState [Op.alloc 16 (some 1), Op.alloc 32 (some 2)])).1 = true ∧
      (_mem_free 1 (runOps initState
          [Op.alloc 16 (some 1), Op.alloc 32 (some 2)])).2.memory_data.deallocations_count
        = (runOps initState
            [Op.alloc 16 (some 1), Op.alloc 32 (some 2)]).memory_data.deallocations_count + 1 ∧
      (_mem_free 1 (runOps initState
          [Op.alloc 16 (some 1), Op.alloc 32 (some 2)])).2.memory_data.heap_memory_freed
        = (runOps initState
            [Op.alloc 16 (some 1), Op.alloc 32 (some 2)]).memory_data.heap_memory_freed + sz ∧
      absList (_mem_free 1 (runOps initState [Op.alloc 16 (some 1), Op.alloc 32 (some 2)])).2
        = removeFirstPtr 1 (absList (runOps initState [Op.alloc 16 (some 1), Op.alloc 32 (some 2)])) :=
  mem_free_removes_most_recent_match
    (runOps initState [Op.alloc 16 (some 1), Op.alloc 32 (some 2)]) 1
    (by decide) (by decide)

/-- C9: on every state reachable by a realistically-responded run of the
public operations, no live record carries the null address, so releasing
the null handle returns the no-match signal `false` and changes neither
the registry nor any counter (only the ghost system-allocator side sees
the unconditional system free of NULL). -/
theorem mem_free_null_handle (ops : List Op)
    (hv : validRun initState ops = true) :
    (∀ a ∈ ptrList (runOps initState ops), a ≠ 0) ∧
    _mem_free 0 (runOps initState ops) = (false,
      { runOps initState ops with
          sysLive := (runOps initState ops).sysLive.erase 0
          sysFreeLog := (runOps initState ops).sysFreeLog ++ [0] }) := by
  obtain ⟨hwf, hnz⟩ := nonzero_run ops initState hv WF_initState
    (by intro a ha; simp [ptrList, initState] at ha)
  refine ⟨hnz, mem_free_unmatched ?_⟩
  intro hmem
  exact hnz 0 (by rw [ptrList_eq]; exact hmem) rfl

/-- C9 witness: the run allocate(8) = 3. -/
theorem mem_free_null_handle_witness :
    (∀ a ∈ ptrList (runOps initState [Op.alloc 8 (some 3)]), a ≠ 0) ∧
    _mem_free 0 (runOps initState [Op.alloc 8 (some 3)]) = (false,
      { runOps initState [Op.alloc 8 (some 3)] with
          sysLive := (runOps initState [Op.alloc 8 (some 3)]).sysLive.erase 0
          sysFreeLog := (runOps initState [Op.alloc 8 (some 3)]).sysFreeLog ++ [0] }) :=
  mem_free_null_handle [Op.alloc 8 (some 3)] (by decide)

/-- C2: after any realistically-responded sequence of allocate and
release operations, the chain walked from the tail following `prev`
links is exactly the store of live records (every live record is visited
exactly once and, by `linkedB`, the walk ends at a record whose `prev`
is empty), and the set of addresses on that walk equals exactly the set
of handles returned by successful allocations and not yet successfully
released. -/
theorem alloc_free_chain_invariant (ops : List Op)
    (haf : allocFreeOnly ops = true) (hv : validRun initState ops = true) :
    (∀ a, a ∈ ptrsOf (walkChain (runOps initState ops).nodes
        (runOps initState ops).nodes.length (runOps initState ops).imp_heap)
      ↔ a ∈ specLive [] ops) ∧
    walkChain (runOps initState ops).nodes (runOps initState ops).nodes.length
        (runOps initState ops).imp_heap = (runOps initState ops).nodes ∧
    (keyList (runOps initState ops).nodes).Nodup ∧
    linkedB (runOps initState ops).nodes none (runOps initState ops).imp_heap = true := by
  obtain ⟨hwf, hspec, hnd⟩ := spec_run ops initState haf hv WF_initState rfl List.nodup_nil
  have hspec2 : ptrList (runOps initState ops) = specLive [] ops := hspec
  have hwalk := walkChain_eq (runOps initState ops).nodes []
    none (runOps initState ops).imp_heap (runOps initState ops).nodes.length hwf.1
    (by rw [List.nil_append]; exact hwf.2.1) (Nat.le_refl _)
  rw [List.nil_append] at hwalk
  refine ⟨?_, hwalk, hwf.2.1, hwf.1⟩
  intro a
  rw [hwalk]
  rw [show ptrsOf (runOps initState ops).nodes = specLive [] ops from hspec2]

/-- C2 witness: allocate(16) = 1, allocate(32) = 2, release(1). -/
theorem alloc_free_chain_invariant_witness :
    (∀ a, a ∈ ptrsOf (walkChain
        (runOps initState [Op.alloc 16 (some 1), Op.alloc 32 (some 2), Op.free 1]).nodes
        (runOps initState [Op.alloc 16 (some 1), Op.alloc 32 (some 2), Op.free 1]).nodes.length
        (runOps initState [Op.alloc 16 (some 1), Op.alloc 32 (some 2), Op.free 1]).imp_heap)
      ↔ a ∈ specLive [] [Op.alloc 16 (some 1), Op.alloc 32 (some 2), Op.free 1]) ∧
    walkChain
        (runOps initState [Op.alloc 16 (some 1), Op.alloc 32 (some 2), Op.free 1]).nodes
        (runOps initState [Op.alloc 16 (some 1), Op.alloc 32 (some 2), Op.free 1]).nodes.length
        (runOps initState [Op.alloc 16 (some 1), Op.alloc 32 (some 2), Op.free 1]).imp_heap
      = (runOps initState [Op.alloc 16 (some 1), Op.alloc 32 (some 2), Op.free 1]).nodes ∧
    (keyList (runOps initState
        [Op.alloc 16 (some 1), Op.alloc 32 (some 2), Op.free 1]).nodes).Nodup ∧
    linkedB (runOps initState [Op.alloc 16 (some 1), Op.alloc 32 (some 2), Op.free 1]).nodes
        none (runOps initState [Op.alloc 16 (some 1), Op.alloc 32 (some 2), Op.free 1]).imp_heap
      = true :=
  alloc_free_chain_invariant [Op.alloc 16 (some 1), Op.alloc 32 (some 2), Op.free 1]
    (by decide) (by decide)

/-- C5 counterexample: the claim "no two live records ever share an
address" fails on the code.  allocate(8) with the system returning
address 1, then resize(1, 16) with the system resizing in place (again
address 1) — both responses realistic (`validRun` holds) — leaves two
live records with address 1, because `_mem_realloc` inserts a fresh
record without removing the stale one. -/
theorem distinct_addresses_counterexample :
    validRun initState [Op.alloc 8 (some 1), Op.realloc 1 16 (some 1)] = true ∧
    ptrList (runOps initState [Op.alloc 8 (some 1), Op.realloc 1 16 (some 1)]) = [1, 1] ∧
    ¬ (ptrList (runOps initState [Op.alloc 8 (some 1), Op.realloc 1 16 (some 1)])).Nodup :=
  ⟨by decide, by decide, by decide⟩

/-- C5 amended: after any realistically-responded sequence of the public
operations that contains no resize, no two live records share the same
address. -/
theorem no_resize_distinct_addresses (ops : List Op)
    (hnr : noResize ops = true) (hv : validRun initState ops = true) :
    (ptrList (runOps initState ops)).Nodup :=
  (sys_run ops initState hnr hv WF_initState rfl List.nodup_nil).2.2

/-- C5 amended witness: allocate(8) = 1, zero-allocate(2, 4) = 2,
release(1), stack-init(8). -/
theorem no_resize_distinct_addresses_witness :
    (ptrList (runOps initState
      [Op.alloc 8 (some 1), Op.calloc 2 4 (some 2), Op.free 1,
        Op.stackInit true 8])).Nodup :=
  no_resize_distinct_addresses
    [Op.alloc 8 (some 1), Op.calloc 2 4 (some 2), Op.free 1, Op.stackInit true 8]
    (by decide) (by decide)
